import Mathlib

/-!
Verification of the kistaverk function-analysis engine against its
specification.  The repository ships only the JNI boundary file
(`native-bridge.cpp`); the Rust engine it calls (`analyze_function`,
`compute_derivative`, `create_plot`, `benchmark_function`) is not part of
the source tree, so the engine components below are modelled from the
specification, while the boundary functions are embedded directly from
`native-bridge.cpp`.
-/

namespace Kistaverk

/-! ## Data model: AST, environment, errors -/

/-- Binary operator kinds of the AST: add, subtract, multiply, divide, power.
Modelled from the spec: the engine source is absent from the tree. -/
inductive BinKind where
  | add | sub | mul | div | pow
deriving DecidableEq, Repr

/-- Unary operator kinds: negation and the named single-argument functions
(sin, cos, tan, exp, ln, sqrt, abs).  Modelled from the spec: the spec's
`Call(function_name, argument_list)` nodes arise only for these named
single-argument functions (an unknown identifier in call position is a
`ParseError`), so they are represented by their `UnaryOp` kinds, which the
spec's data model already lists. -/
inductive UnKind where
  | neg | sin | cos | tan | exp | ln | sqrt | abs
deriving DecidableEq, Repr

/-- Expression AST.  Modelled from the spec: tagged variant over constants,
variables, unary and binary operations; a pure immutable tree.  Constants
arise from decimal literals, so their values are represented exactly as
rationals and injected into ℝ at evaluation time. -/
inductive Expr where
  | const (q : ℚ)
  | var (name : String)
  | unary (k : UnKind) (e : Expr)
  | binary (k : BinKind) (l r : Expr)
deriving DecidableEq, Repr

/-- Variable environment: mapping from variable name to numeric value.
Modelled from the spec. -/
def Env : Type := String → Option ℝ

/-- Evaluation errors.  Modelled from the spec: domain violation (division by
zero, `ln` of a non-positive number, `sqrt` of a negative number) and unbound
variable. -/
inductive EvalError where
  | domainViolation
  | unboundVariable (name : String)
deriving DecidableEq, Repr

/-! ## Evaluator

Modelled from the spec: recursive walk of the AST; division by zero and
domain violations fail with `EvalError.domainViolation` instead of silently
producing NaN or Infinity; unbound variables fail with
`EvalError.unboundVariable`.  Arithmetic is idealised over ℝ: the codomain
contains no NaN or Infinity at all, so an `ok` result is always a finite
real number. -/

/-- Value of a unary operation at a real argument (total part). -/
noncomputable def unValue : UnKind → ℝ → ℝ
  | .neg, a => -a
  | .sin, a => Real.sin a
  | .cos, a => Real.cos a
  | .tan, a => Real.tan a
  | .exp, a => Real.exp a
  | .ln, a => Real.log a
  | .sqrt, a => Real.sqrt a
  | .abs, a => |a|

/-- Domain-violation condition of a unary operation: `ln` of a non-positive
number, `sqrt` of a negative number, `tan` at a point where cosine vanishes. -/
def unBad : UnKind → ℝ → Prop
  | .ln, a => a ≤ 0
  | .sqrt, a => a < 0
  | .tan, a => Real.cos a = 0
  | _, _ => False

noncomputable instance (k : UnKind) (a : ℝ) : Decidable (unBad k a) := by
  cases k <;> simp only [unBad] <;> infer_instance

/-- Domain-violation condition of the power operation, mirroring IEEE `powf`
turned into an error: a negative base with a non-integer exponent (NaN in the
implementation) or a zero base with a negative exponent (Infinity). -/
def powBad (a b : ℝ) : Prop :=
  (a < 0 ∧ ¬ ∃ n : ℤ, (n : ℝ) = b) ∨ (a = 0 ∧ b < 0)

noncomputable instance (a b : ℝ) : Decidable (powBad a b) :=
  Classical.propDecidable _

/-- Evaluate an AST under an environment.  Modelled from the spec. -/
noncomputable def evaluate : Expr → Env → Except EvalError ℝ
  | .const q, _ => .ok (q : ℝ)
  | .var n, env =>
    match env n with
    | some v => .ok v
    | none => .error (.unboundVariable n)
  | .unary k e, env => do
    let a ← evaluate e env
    if unBad k a then .error .domainViolation else .ok (unValue k a)
  | .binary k l r, env => do
    let a ← evaluate l env
    let b ← evaluate r env
    match k with
    | .add => .ok (a + b)
    | .sub => .ok (a - b)
    | .mul => .ok (a * b)
    | .div => if b = 0 then .error .domainViolation else .ok (a / b)
    | .pow =>
      if powBad a b then .error .domainViolation
      else .ok (Real.rpow a b)

/-- The empty environment. -/
def emptyEnv : Env := fun _ => none

/-! ## C1: domain violations are reported as `EvalError.domainViolation` -/

/-- C1.  For every AST and environment, evaluation reports
`EvalError.domainViolation` whenever the computation encounters a division by
zero, `ln` of a non-positive number, or `sqrt` of a negative number (the
sub-computations producing the offending values having themselves succeeded).
The evaluator's success codomain is ℝ, which contains neither NaN nor
Infinity, so no such case can ever surface as a success value. -/
theorem evaluate_domain_violations (env : Env) :
    (∀ a b : Expr, ∀ va : ℝ, evaluate a env = .ok va →
      evaluate b env = .ok 0 →
      evaluate (.binary .div a b) env = .error .domainViolation) ∧
    (∀ e : Expr, ∀ v : ℝ, evaluate e env = .ok v → v ≤ 0 →
      evaluate (.unary .ln e) env = .error .domainViolation) ∧
    (∀ e : Expr, ∀ v : ℝ, evaluate e env = .ok v → v < 0 →
      evaluate (.unary .sqrt e) env = .error .domainViolation) := by
  refine ⟨?_, ?_, ?_⟩
  · intro a b va ha hb
    simp [evaluate, ha, hb, bind, Except.bind]
  · intro e v he hv
    simp [evaluate, he, unBad, hv, bind, Except.bind]
  · intro e v he hv
    simp [evaluate, he, unBad, hv, bind, Except.bind]

/-- Witness for C1 at concrete inputs: `1/0`, `ln 0` and `sqrt (-1)` all
evaluate to `EvalError.domainViolation`. -/
theorem evaluate_domain_violations_witness :
    evaluate (.binary .div (.const 1) (.const 0)) emptyEnv
      = .error .domainViolation ∧
    evaluate (.unary .ln (.const 0)) emptyEnv = .error .domainViolation ∧
    evaluate (.unary .sqrt (.const (-1))) emptyEnv
      = .error .domainViolation := by
  refine ⟨?_, ?_, ?_⟩
  · exact (evaluate_domain_violations emptyEnv).1 (.const 1) (.const 0) 1
      (by simp [evaluate]) (by simp [evaluate])
  · exact (evaluate_domain_violations emptyEnv).2.1 (.const 0) 0
      (by simp [evaluate]) (by norm_num)
  · exact (evaluate_domain_violations emptyEnv).2.2 (.const (-1)) (-1)
      (by simp [evaluate]) (by norm_num)

/-! ## Sampler

Modelled from the spec: `sample(ast, x_min, x_max, resolution)` fails
immediately with `InvalidRangeError` if `x_min >= x_max` or
`resolution <= 0`; otherwise it evaluates the expression at `resolution`
evenly spaced points across `[x_min, x_max]` (endpoints inclusive, grid
length equal to the requested resolution), recording each point's
evaluation failure as an explicit gap marker (`none`) in that position. -/

/-- Error type of the sampler. -/
inductive InvalidRangeError where
  | invalidRange
deriving DecidableEq, Repr

/-- The plotting environment binding only the plot variable `x`. -/
noncomputable def xEnv (x : ℝ) : Env :=
  fun n => if n = "x" then some x else none

/-- The i-th grid abscissa of `resolution` evenly spaced points across
`[x_min, x_max]`, endpoints inclusive. -/
noncomputable def gridX (x_min x_max : ℝ) (resolution : ℤ) (i : ℕ) : ℝ :=
  x_min + i * (x_max - x_min) / ((resolution : ℝ) - 1)

/-- One grid point: the abscissa paired with either the value or an explicit
gap marker (`none`) when evaluation fails there. -/
noncomputable def samplePoint (ast : Expr) (x_min x_max : ℝ)
    (resolution : ℤ) (i : ℕ) : ℝ × Option ℝ :=
  let x := gridX x_min x_max resolution i
  (x, match evaluate ast (xEnv x) with
      | .ok y => some y
      | .error _ => none)

/-- Sample an expression across `[x_min, x_max]`.  Modelled from the spec. -/
noncomputable def sample (ast : Expr) (x_min x_max : ℝ) (resolution : ℤ) :
    Except InvalidRangeError (List (ℝ × Option ℝ)) :=
  if x_max ≤ x_min ∨ resolution ≤ 0 then .error .invalidRange
  else .ok ((List.range resolution.toNat).map
    (samplePoint ast x_min x_max resolution))

/-! ## C4: sample rejects invalid ranges, before any evaluation -/

/-- C4.  For every AST, `sample` fails with `InvalidRangeError` exactly when
`x_min >= x_max` or `resolution <= 0`; since the equivalence holds uniformly
in the AST, the failure is decided by the range check alone, before any
evaluation of the expression. -/
theorem sample_invalid_range_iff (ast : Expr) (x_min x_max : ℝ)
    (resolution : ℤ) :
    sample ast x_min x_max resolution = .error .invalidRange ↔
      (x_max ≤ x_min ∨ resolution ≤ 0) := by
  unfold sample
  by_cases h : x_max ≤ x_min ∨ resolution ≤ 0 <;> simp [h]

/-! ## C5: valid sampling produces a full grid with explicit gaps -/

/-- C5.  For every AST and valid range (`x_min < x_max`, `resolution > 0`),
`sample` succeeds with a grid of exactly `resolution` points; the i-th point
carries the i-th evenly spaced abscissa together with either the evaluated
value or an explicit gap marker when evaluation fails at that abscissa (so a
single failing point never aborts the rest); consecutive abscissas differ by
the constant step `(x_max - x_min)/(resolution - 1)` and the abscissas are
strictly increasing. -/
theorem sample_valid_grid (ast : Expr) (x_min x_max : ℝ) (resolution : ℤ)
    (hr : x_min < x_max) (hres : 0 < resolution) :
    ∃ pts : List (ℝ × Option ℝ),
      sample ast x_min x_max resolution = .ok pts ∧
      pts.length = resolution.toNat ∧
      (∀ i : ℕ, i < pts.length →
        pts.get? i = some (gridX x_min x_max resolution i,
          match evaluate ast (xEnv (gridX x_min x_max resolution i)) with
          | .ok y => some y
          | .error _ => none)) ∧
      (∀ i : ℕ, i + 1 < pts.length →
        gridX x_min x_max resolution (i + 1) - gridX x_min x_max resolution i
          = (x_max - x_min) / ((resolution : ℝ) - 1)) ∧
      (∀ i j : ℕ, i < j → j < pts.length →
        gridX x_min x_max resolution i < gridX x_min x_max resolution j) := by
  refine ⟨(List.range resolution.toNat).map
    (samplePoint ast x_min x_max resolution), ?_, ?_, ?_, ?_, ?_⟩
  · unfold sample
    have h : ¬ (x_max ≤ x_min ∨ resolution ≤ 0) := by
      push_neg
      exact ⟨hr, hres⟩
    simp [h]
  · simp
  · intro i hi
    simp only [List.length_map, List.length_range] at hi
    simp only [List.get?_eq_getElem?, List.getElem?_map,
      List.getElem?_range hi]
    rfl
  · intro i hi
    simp only [List.length_map, List.length_range] at hi
    have hstep : (0:ℝ) < (x_max - x_min) / ((resolution : ℝ) - 1) := by
      apply div_pos (by linarith)
      have h2 : (2 : ℤ) ≤ resolution := by omega
      have : (2 : ℝ) ≤ (resolution : ℝ) := by exact_mod_cast h2
      linarith
    unfold gridX
    push_cast
    ring
  · intro i j hij hj
    simp only [List.length_map, List.length_range] at hj
    have h2 : (2 : ℤ) ≤ resolution := by
      have : 1 ≤ j := by omega
      omega
    have h2r : (2 : ℝ) ≤ (resolution : ℝ) := by exact_mod_cast h2
    have hstep : (0:ℝ) < (x_max - x_min) / ((resolution : ℝ) - 1) :=
      div_pos (by linarith) (by linarith)
    unfold gridX
    have hij' : (i : ℝ) < (j : ℝ) := by exact_mod_cast hij
    have := mul_lt_mul_of_pos_right hij' hstep
    calc x_min + i * (x_max - x_min) / ((resolution : ℝ) - 1)
        = x_min + i * ((x_max - x_min) / ((resolution : ℝ) - 1)) := by ring
      _ < x_min + j * ((x_max - x_min) / ((resolution : ℝ) - 1)) := by linarith
      _ = x_min + j * (x_max - x_min) / ((resolution : ℝ) - 1) := by ring

/-- Witness for C5: sampling `1/x` at 3 points across `[-1, 1]` yields a grid
whose middle point (x = 0) is a gap while the grid keeps all 3 points. -/
theorem sample_valid_grid_witness :
    (-1 : ℝ) < 1 ∧ (0 : ℤ) < 3 ∧
    ∃ pts : List (ℝ × Option ℝ),
      sample (.binary .div (.const 1) (.var "x")) (-1) 1 3 = .ok pts ∧
      pts.length = (3 : ℤ).toNat ∧
      (∀ i : ℕ, i < pts.length →
        pts.get? i = some (gridX (-1) 1 3 i,
          match evaluate (.binary .div (.const 1) (.var "x"))
              (xEnv (gridX (-1) 1 3 i)) with
          | .ok y => some y
          | .error _ => none)) ∧
      (∀ i : ℕ, i + 1 < pts.length →
        gridX (-1) 1 3 (i + 1) - gridX (-1) 1 3 i
          = (1 - (-1)) / ((3 : ℝ) - 1)) ∧
      (∀ i j : ℕ, i < j → j < pts.length →
        gridX (-1) 1 3 i < gridX (-1) 1 3 j) := by
  refine ⟨by norm_num, by norm_num, ?_⟩
  have h := sample_valid_grid (.binary .div (.const 1) (.var "x"))
    (-1) 1 3 (by norm_num) (by norm_num)
  simpa using h

/-! ## Benchmark harness

Modelled from the spec: `benchmark(ast, environment, iterations)` fails with
`InvalidArgumentError` if `iterations <= 0`; otherwise it performs a small
fixed number of untimed warm-up evaluations, then times `iterations`
evaluations and aggregates mean, min, max and standard deviation.  Any
evaluation failure aborts the run and surfaces the underlying `EvalError`.
The monotonic clock is modelled as an oracle `dur` giving the measured
duration of the i-th timed evaluation. -/

/-- Errors of the benchmark harness: a non-positive iteration count, or an
evaluation failure surfaced from the run. -/
inductive BenchError where
  | invalidArgument
  | evalFailed (e : EvalError)
deriving DecidableEq, Repr

/-- Aggregated timing statistics.  Modelled from the spec. -/
structure BenchmarkResult where
  iterations : ℤ
  total : ℝ
  mean : ℝ
  min : ℝ
  max : ℝ
  stddev : ℝ

/-- Fixed number of untimed warm-up evaluations. -/
def warmupCount : ℕ := 3

/-- Run `n` untimed warm-up evaluations, aborting on the first failure. -/
noncomputable def warmupRuns (ast : Expr) (env : Env) :
    ℕ → Except EvalError Unit
  | 0 => .ok ()
  | n + 1 => do
    let _ ← evaluate ast env
    warmupRuns ast env n

/-- Run `n` timed evaluations; the i-th successful evaluation records the
duration `dur i` reported by the monotonic clock oracle. -/
noncomputable def timedRuns (ast : Expr) (env : Env) (dur : ℕ → ℝ) :
    ℕ → Except EvalError (List ℝ)
  | 0 => .ok []
  | n + 1 => do
    let ds ← timedRuns ast env dur n
    let _ ← evaluate ast env
    .ok (ds ++ [dur n])

/-- Benchmark an expression.  Modelled from the spec. -/
noncomputable def benchmark (ast : Expr) (env : Env) (iterations : ℤ)
    (dur : ℕ → ℝ) : Except BenchError BenchmarkResult :=
  if iterations ≤ 0 then .error .invalidArgument
  else
    match warmupRuns ast env warmupCount with
    | .error e => .error (.evalFailed e)
    | .ok _ =>
      match timedRuns ast env dur iterations.toNat with
      | .error e => .error (.evalFailed e)
      | .ok ds =>
        let mean := ds.sum / (iterations : ℝ)
        .ok { iterations := iterations
              total := ds.sum
              mean := mean
              min := ds.minimum.untop' 0
              max := ds.maximum.unbot' 0
              stddev := Real.sqrt
                ((ds.map (fun d => (d - mean) ^ 2)).sum / (iterations : ℝ)) }

/-- The timed runs succeed and collect exactly the oracle durations whenever
evaluation of the expression succeeds. -/
theorem timedRuns_ok (ast : Expr) (env : Env) (dur : ℕ → ℝ) (v : ℝ)
    (hv : evaluate ast env = .ok v) :
    ∀ n : ℕ, timedRuns ast env dur n = .ok ((List.range n).map dur) := by
  intro n
  induction n with
  | zero => simp [timedRuns]
  | succ n ih =>
    simp [timedRuns, ih, hv, bind, Except.bind, List.range_succ]

/-- The warm-up runs succeed whenever evaluation of the expression
succeeds. -/
theorem warmupRuns_ok (ast : Expr) (env : Env) (v : ℝ)
    (hv : evaluate ast env = .ok v) :
    ∀ n : ℕ, warmupRuns ast env n = .ok () := by
  intro n
  induction n with
  | zero => simp [warmupRuns]
  | succ n ih => simp [warmupRuns, ih, hv, bind, Except.bind]

/-! ## C6: benchmark contract -/

/-- C6.  `benchmark` fails with `InvalidArgumentError` when
`iterations <= 0`; when `iterations > 0` and evaluation succeeds, it returns
a `BenchmarkResult` whose iteration count equals the requested count and
whose statistics satisfy `min <= mean <= max`. -/
theorem benchmark_contract (ast : Expr) (env : Env) (iterations : ℤ)
    (dur : ℕ → ℝ) :
    (iterations ≤ 0 →
      benchmark ast env iterations dur = .error .invalidArgument) ∧
    (0 < iterations → ∀ v : ℝ, evaluate ast env = .ok v →
      ∃ r : BenchmarkResult, benchmark ast env iterations dur = .ok r ∧
        r.iterations = iterations ∧ r.min ≤ r.mean ∧ r.mean ≤ r.max) := by
  constructor
  · intro h
    simp [benchmark, h]
  · intro hpos v hv
    have hne : ¬ iterations ≤ 0 := by omega
    have hwarm := warmupRuns_ok ast env v hv warmupCount
    have htimed := timedRuns_ok ast env dur v hv iterations.toNat
    set ds : List ℝ := (List.range iterations.toNat).map dur with hds
    have hlen : ds.length = iterations.toNat := by simp [hds]
    have hlen0 : 0 < ds.length := by
      rw [hlen]
      omega
    have hcast : ((iterations.toNat : ℕ) : ℝ) = (iterations : ℝ) := by
      exact_mod_cast congrArg (fun z : ℤ => (z : ℝ))
        (Int.toNat_of_nonneg (by omega))
    have hposR : (0 : ℝ) < (iterations : ℝ) := by exact_mod_cast hpos
    refine ⟨{ iterations := iterations
              total := ds.sum
              mean := ds.sum / (iterations : ℝ)
              min := ds.minimum.untop' 0
              max := ds.maximum.unbot' 0
              stddev := Real.sqrt
                ((ds.map (fun d => (d - ds.sum / (iterations : ℝ)) ^ 2)).sum
                  / (iterations : ℝ)) },
      by simp [benchmark, hne, hwarm, htimed], rfl, ?_, ?_⟩
    · -- min ≤ mean
      cases hmin : ds.minimum with
      | top =>
        exact absurd (List.minimum_eq_top.mp hmin)
          (List.ne_nil_of_length_pos hlen0)
      | coe a =>
        obtain ⟨_, hle⟩ := List.minimum_eq_coe_iff.mp hmin
        have hsum : ds.length • a ≤ ds.sum := List.card_nsmul_le_sum ds a hle
        rw [nsmul_eq_mul, hlen, hcast] at hsum
        simp only [hmin, WithTop.untop'_coe]
        rw [le_div_iff₀ hposR]
        linarith
    · -- mean ≤ max
      cases hmax : ds.maximum with
      | bot =>
        exact absurd (List.maximum_eq_bot.mp hmax)
          (List.ne_nil_of_length_pos hlen0)
      | coe a =>
        obtain ⟨_, hle⟩ := List.maximum_eq_coe_iff.mp hmax
        have hsum : ds.sum ≤ ds.length • a := List.sum_le_card_nsmul ds a hle
        rw [nsmul_eq_mul, hlen, hcast] at hsum
        simp only [hmax, WithBot.unbot'_coe]
        rw [div_le_iff₀ hposR]
        linarith

/-- Witness for C6: `benchmark` on the constant expression `1` fails at
iteration count 0 and succeeds at 1000 with `min <= mean <= max`. -/
theorem benchmark_contract_witness :
    benchmark (.const 1) emptyEnv 0 (fun _ => 1) = .error .invalidArgument ∧
    ∃ r : BenchmarkResult,
      benchmark (.const 1) emptyEnv 1000 (fun _ => 1) = .ok r ∧
      r.iterations = 1000 ∧ r.min ≤ r.mean ∧ r.mean ≤ r.max := by
  constructor
  · exact (benchmark_contract (.const 1) emptyEnv 0 (fun _ => 1)).1
      (by norm_num)
  · exact (benchmark_contract (.const 1) emptyEnv 1000 (fun _ => 1)).2
      (by norm_num) 1 (by simp [evaluate])

/-! ## C7: benchmark aborts on evaluation failure -/

/-- C7.  For every expression and positive iteration count, if evaluation of
the expression fails (so every evaluation during the benchmark run fails —
evaluation is deterministic in a fixed environment), the whole benchmark
aborts with the underlying `EvalError` and no partial `BenchmarkResult` is
returned. -/
theorem benchmark_aborts_on_eval_failure (ast : Expr) (env : Env)
    (iterations : ℤ) (dur : ℕ → ℝ) (e : EvalError)
    (hpos : 0 < iterations) (he : evaluate ast env = .error e) :
    benchmark ast env iterations dur = .error (.evalFailed e) := by
  have hne : ¬ iterations ≤ 0 := by omega
  have hwarm : warmupRuns ast env warmupCount = .error e := by
    simp [warmupRuns, warmupCount, he, bind, Except.bind]
  simp [benchmark, hne, hwarm]

/-- Witness for C7: benchmarking `ln 0` aborts with the domain violation. -/
theorem benchmark_aborts_on_eval_failure_witness :
    benchmark (.unary .ln (.const 0)) emptyEnv 1000 (fun _ => 1)
      = .error (.evalFailed .domainViolation) := by
  exact benchmark_aborts_on_eval_failure (.unary .ln (.const 0)) emptyEnv
    1000 (fun _ => 1) .domainViolation (by norm_num)
    (by simp [evaluate, unBad, bind, Except.bind])

/-! ## Differentiator

Modelled from the spec: two independent strategies over the same AST.
Forward mode seeds the differentiation variable with a dual number
`(x, 1.0)` (all other variables `(value, 0.0)`) and evaluates with
dual-number arithmetic (sum rule, product rule, quotient rule, chain rule
per unary function).  Reverse mode runs a forward pass recording every
primitive operation onto a tape — each entry holds the operation kind, the
indices of its inputs among earlier entries, and the resulting value — then
a backward pass initialises the output adjoint to 1.0 and propagates
adjoints backward through the recorded operations using each operation's
local partial-derivative rule; the requested variable's accumulated adjoint
(summed over the tape entries that read it) is the answer. -/

/-- DualNumber: pair (value, derivative).  Modelled from the spec. -/
structure DualNumber where
  val : ℝ
  der : ℝ

/-- Derivative of a unary operation at a real argument: the local
partial-derivative rule shared by the chain rule of forward mode and the
backward propagation of reverse mode. -/
noncomputable def unDeriv : UnKind → ℝ → ℝ
  | .neg, _ => -1
  | .sin, a => Real.cos a
  | .cos, a => -Real.sin a
  | .tan, a => 1 / Real.cos a ^ 2
  | .exp, a => Real.exp a
  | .ln, a => 1 / a
  | .sqrt, a => 1 / (2 * Real.sqrt a)
  | .abs, a => if a < 0 then -1 else 1

/-- Differentiation-domain violation of a unary operation: `ln` and `sqrt`
need a strictly positive argument for the derivative, `tan` a non-vanishing
cosine. -/
def adUnBad : UnKind → ℝ → Prop
  | .ln, a => a ≤ 0
  | .sqrt, a => a ≤ 0
  | .tan, a => Real.cos a = 0
  | _, _ => False

noncomputable instance (k : UnKind) (a : ℝ) : Decidable (adUnBad k a) :=
  Classical.propDecidable _

/-- Differentiation-domain violation of a binary operation: division by
zero; a power needs a strictly positive base (its derivative involves
`ln` of the base). -/
def binBadAD : BinKind → ℝ → ℝ → Prop
  | .div, _, b => b = 0
  | .pow, a, _ => a ≤ 0
  | _, _, _ => False

noncomputable instance (k : BinKind) (a b : ℝ) : Decidable (binBadAD k a b) :=
  Classical.propDecidable _

/-- Value of a binary operation. -/
noncomputable def binValue : BinKind → ℝ → ℝ → ℝ
  | .add, a, b => a + b
  | .sub, a, b => a - b
  | .mul, a, b => a * b
  | .div, a, b => a / b
  | .pow, a, b => Real.rpow a b

/-- Textbook dual-number rule for a binary operation: sum rule, product
rule, quotient rule, power rule. -/
noncomputable def dualBin : BinKind → DualNumber → DualNumber → DualNumber
  | .add, a, b => ⟨a.val + b.val, a.der + b.der⟩
  | .sub, a, b => ⟨a.val - b.val, a.der - b.der⟩
  | .mul, a, b => ⟨a.val * b.val, a.der * b.val + a.val * b.der⟩
  | .div, a, b => ⟨a.val / b.val, (a.der * b.val - a.val * b.der) / b.val ^ 2⟩
  | .pow, a, b => ⟨Real.rpow a.val b.val,
      Real.rpow a.val b.val
        * (b.der * Real.log a.val + b.val * a.der / a.val)⟩

/-- Local partial derivative of a binary operation with respect to its left
input, used by the reverse-mode backward pass. -/
noncomputable def binPartialL : BinKind → ℝ → ℝ → ℝ
  | .add, _, _ => 1
  | .sub, _, _ => 1
  | .mul, _, b => b
  | .div, _, b => 1 / b
  | .pow, a, b => Real.rpow a b * b / a

/-- Local partial derivative of a binary operation with respect to its right
input, used by the reverse-mode backward pass. -/
noncomputable def binPartialR : BinKind → ℝ → ℝ → ℝ
  | .add, _, _ => 1
  | .sub, _, _ => -1
  | .mul, a, _ => a
  | .div, a, b => -a / b ^ 2
  | .pow, a, b => Real.rpow a b * Real.log a

/-- Forward-mode evaluation with dual-number arithmetic.  Modelled from the
spec. -/
noncomputable def dualEval :
    Expr → (String → Option DualNumber) → Except EvalError DualNumber
  | .const q, _ => .ok ⟨(q : ℝ), 0⟩
  | .var n, denv =>
    match denv n with
    | some d => .ok d
    | none => .error (.unboundVariable n)
  | .unary k e, denv => do
    let a ← dualEval e denv
    if adUnBad k a.val then .error .domainViolation
    else .ok ⟨unValue k a.val, unDeriv k a.val * a.der⟩
  | .binary k l r, denv => do
    let a ← dualEval l denv
    let b ← dualEval r denv
    if binBadAD k a.val b.val then .error .domainViolation
    else .ok (dualBin k a b)

/-- Dual seeding of an environment: the differentiation variable carries
derivative 1.0, every other variable derivative 0.0. -/
noncomputable def fwdEnv (env : Env) (v : String) :
    String → Option DualNumber :=
  fun n => (env n).map (fun x => ⟨x, if n = v then 1 else 0⟩)

/-- Forward-mode derivative of `ast` with respect to `v` under `env`. -/
noncomputable def forwardDeriv (ast : Expr) (env : Env) (v : String) :
    Except EvalError ℝ :=
  (dualEval ast (fwdEnv env v)).map DualNumber.der

/-- A recorded primitive operation: its kind and the indices of its inputs
among earlier tape entries.  Modelled from the spec. -/
inductive TapeOp where
  | constOp (q : ℚ)
  | varOp (name : String)
  | unOp (k : UnKind) (i : ℕ)
  | binOp (k : BinKind) (i j : ℕ)

/-- A tape entry: the recorded operation together with its resulting
value. -/
structure TapeEntry where
  op : TapeOp
  value : ℝ

/-- The tape: an append-only ordered sequence of recorded operations,
indexed by position; inputs point to strictly earlier entries. -/
abbrev Tape := List TapeEntry

/-- Forward (recording) pass of reverse mode: evaluate the AST, appending
one tape entry per primitive operation; returns the extended tape, the index
of the entry holding the result, and the resulting value. -/
noncomputable def record :
    Expr → Env → Tape → Except EvalError (Tape × ℕ × ℝ)
  | .const q, _, t => .ok (t ++ [⟨.constOp q, (q : ℝ)⟩], t.length, (q : ℝ))
  | .var n, env, t =>
    match env n with
    | some x => .ok (t ++ [⟨.varOp n, x⟩], t.length, x)
    | none => .error (.unboundVariable n)
  | .unary k e, env, t => do
    let (t₁, i, a) ← record e env t
    if adUnBad k a then .error .domainViolation
    else .ok (t₁ ++ [⟨.unOp k i, unValue k a⟩], t₁.length, unValue k a)
  | .binary k l r, env, t => do
    let (t₁, i, a) ← record l env t
    let (t₂, j, b) ← record r env t₁
    if binBadAD k a b then .error .domainViolation
    else .ok (t₂ ++ [⟨.binOp k i j, binValue k a b⟩], t₂.length,
      binValue k a b)

/-- Value stored at a tape index (0 outside the tape). -/
noncomputable def valueAt (t : Tape) (i : ℕ) : ℝ :=
  ((t[i]?).map TapeEntry.value).getD 0

/-- Add `c` to the adjoint accumulated at index `k`. -/
noncomputable def addAdj (adj : ℕ → ℝ) (k : ℕ) (c : ℝ) : ℕ → ℝ :=
  fun j => if j = k then adj j + c else adj j

/-- One step of the backward pass: distribute the adjoint of entry `i` to
its inputs, weighted by the operation's local partial derivatives. -/
noncomputable def stepBack (t : Tape) (adj : ℕ → ℝ) (i : ℕ) : ℕ → ℝ :=
  match t[i]? with
  | some ⟨.unOp k j, _⟩ => addAdj adj j (adj i * unDeriv k (valueAt t j))
  | some ⟨.binOp k j₁ j₂, _⟩ =>
    let a := adj i
    let vl := valueAt t j₁
    let vr := valueAt t j₂
    addAdj (addAdj adj j₁ (a * binPartialL k vl vr)) j₂
      (a * binPartialR k vl vr)
  | _ => adj

/-- Backward pass over `c` entries, processing indices
`top - 1, top - 2, ..., top - c` in reverse recording order. -/
noncomputable def processCount (t : Tape) : (ℕ → ℝ) → ℕ → ℕ → (ℕ → ℝ)
  | adj, _, 0 => adj
  | adj, top, c + 1 => processCount t (stepBack t adj (top - 1)) (top - 1) c

/-- Initial adjoints: 1.0 at the output (last) entry, 0.0 elsewhere. -/
noncomputable def initAdj (n : ℕ) : ℕ → ℝ :=
  fun j => if j = n - 1 then 1 else 0

/-- Indicator that a tape entry reads the variable `v`. -/
noncomputable def entryVarContrib : Option TapeEntry → String → ℝ
  | some ⟨.varOp n, _⟩, v => if n = v then 1 else 0
  | _, _ => 0

/-- Sum of the adjoints accumulated over the `len` entries starting at
index `lo` that read the variable `v`. -/
noncomputable def segVarSum (t : Tape) (adj : ℕ → ℝ) (v : String)
    (lo len : ℕ) : ℝ :=
  ((List.range len).map
    (fun p => entryVarContrib (t[(lo + p)]?) v * adj (lo + p))).sum

/-- The requested variable's accumulated adjoint over the whole tape. -/
noncomputable def varAdjSum (t : Tape) (adj : ℕ → ℝ) (v : String) : ℝ :=
  segVarSum t adj v 0 t.length

/-- Reverse-mode derivative of `ast` with respect to `v` under `env`:
record the forward pass onto a tape, run the backward pass from output
adjoint 1.0, and read off the variable's accumulated adjoint.  Modelled
from the spec. -/
noncomputable def reverseDeriv (ast : Expr) (env : Env) (v : String) :
    Except EvalError ℝ := do
  let (t, _, _) ← record ast env []
  .ok (varAdjSum t (processCount t (initAdj t.length) t.length t.length) v)

/-! ### Structural lemmas for the two differentiation modes -/

theorem record_unary_inv {k : UnKind} {e : Expr} {env : Env} {t₀ t' : Tape}
    {r : ℕ} {val : ℝ}
    (h : record (.unary k e) env t₀ = .ok (t', r, val)) :
    ∃ (t₁ : Tape) (i : ℕ) (a : ℝ),
      record e env t₀ = .ok (t₁, i, a) ∧ ¬ adUnBad k a ∧
      t' = t₁ ++ [⟨.unOp k i, unValue k a⟩] ∧ r = t₁.length ∧
      val = unValue k a := by
  cases h₁ : record e env t₀ with
  | error err => simp [record, h₁, bind, Except.bind] at h
  | ok tri =>
    obtain ⟨t₁, i, a⟩ := tri
    by_cases hg : adUnBad k a
    · simp [record, h₁, bind, Except.bind, hg] at h
    · simp only [record, h₁, bind, Except.bind, hg, if_false,
        Except.ok.injEq, Prod.mk.injEq] at h
      exact ⟨t₁, i, a, rfl, hg, h.1.symm, h.2.1.symm, h.2.2.symm⟩

theorem record_binary_inv {k : BinKind} {l r : Expr} {env : Env}
    {t₀ t' : Tape} {rr : ℕ} {val : ℝ}
    (h : record (.binary k l r) env t₀ = .ok (t', rr, val)) :
    ∃ (t₁ : Tape) (i : ℕ) (a : ℝ) (t₂ : Tape) (j : ℕ) (b : ℝ),
      record l env t₀ = .ok (t₁, i, a) ∧ record r env t₁ = .ok (t₂, j, b) ∧
      ¬ binBadAD k a b ∧
      t' = t₂ ++ [⟨.binOp k i j, binValue k a b⟩] ∧ rr = t₂.length ∧
      val = binValue k a b := by
  cases h₁ : record l env t₀ with
  | error err => simp [record, h₁, bind, Except.bind] at h
  | ok tri₁ =>
    obtain ⟨t₁, i, a⟩ := tri₁
    cases h₂ : record r env t₁ with
    | error err => simp [record, h₁, h₂, bind, Except.bind] at h
    | ok tri₂ =>
      obtain ⟨t₂, j, b⟩ := tri₂
      by_cases hg : binBadAD k a b
      · simp [record, h₁, h₂, bind, Except.bind, hg] at h
      · simp only [record, h₁, h₂, bind, Except.bind, hg, if_false,
          Except.ok.injEq, Prod.mk.injEq] at h
        exact ⟨t₁, i, a, t₂, j, b, rfl, h₂, hg, h.1.symm, h.2.1.symm,
          h.2.2.symm⟩

theorem dual_unary_inv {k : UnKind} {e : Expr}
    {denv : String → Option DualNumber} {dn : DualNumber}
    (h : dualEval (.unary k e) denv = .ok dn) :
    ∃ a : DualNumber, dualEval e denv = .ok a ∧ ¬ adUnBad k a.val ∧
      dn = ⟨unValue k a.val, unDeriv k a.val * a.der⟩ := by
  cases h₁ : dualEval e denv with
  | error err => simp [dualEval, h₁, bind, Except.bind] at h
  | ok a =>
    by_cases hg : adUnBad k a.val
    · simp [dualEval, h₁, bind, Except.bind, hg] at h
    · simp only [dualEval, h₁, bind, Except.bind, hg, if_false,
        Except.ok.injEq] at h
      exact ⟨a, rfl, hg, h.symm⟩

theorem dual_binary_inv {k : BinKind} {l r : Expr}
    {denv : String → Option DualNumber} {dn : DualNumber}
    (h : dualEval (.binary k l r) denv = .ok dn) :
    ∃ a b : DualNumber, dualEval l denv = .ok a ∧ dualEval r denv = .ok b ∧
      ¬ binBadAD k a.val b.val ∧ dn = dualBin k a b := by
  cases h₁ : dualEval l denv with
  | error err => simp [dualEval, h₁, bind, Except.bind] at h
  | ok a =>
    cases h₂ : dualEval r denv with
    | error err => simp [dualEval, h₁, h₂, bind, Except.bind] at h
    | ok b =>
      by_cases hg : binBadAD k a.val b.val
      · simp [dualEval, h₁, h₂, bind, Except.bind, hg] at h
      · simp only [dualEval, h₁, h₂, bind, Except.bind, hg, if_false,
          Except.ok.injEq] at h
        exact ⟨a, b, rfl, rfl, hg, h.symm⟩

/-- Shape of a successful recording pass: the tape grows by a nonempty
suffix, the returned index is the last position, and the entry there holds
the returned value. -/
theorem record_shape (e : Expr) :
    ∀ (env : Env) (t₀ t' : Tape) (r : ℕ) (val : ℝ),
      record e env t₀ = .ok (t', r, val) →
      (∃ blk : Tape, t' = t₀ ++ blk) ∧ t₀.length ≤ r ∧ r + 1 = t'.length ∧
      ∃ en : TapeEntry, t'[r]? = some en ∧ en.value = val := by
  induction e with
  | const q =>
    intro env t₀ t' r val h
    simp only [record, Except.ok.injEq, Prod.mk.injEq] at h
    obtain ⟨ht, hr, hv⟩ := h
    subst ht hr hv
    refine ⟨⟨[⟨.constOp q, (q : ℝ)⟩], rfl⟩, le_refl _, by simp,
      ⟨⟨.constOp q, (q : ℝ)⟩, ?_, rfl⟩⟩
    rw [List.getElem?_append_right (le_refl _)]
    simp
  | var n =>
    intro env t₀ t' r val h
    cases he : env n with
    | none => simp [record, he] at h
    | some x =>
      simp only [record, he, Except.ok.injEq, Prod.mk.injEq] at h
      obtain ⟨ht, hr, hv⟩ := h
      subst ht hr hv
      refine ⟨⟨[⟨.varOp n, x⟩], rfl⟩, le_refl _, by simp,
        ⟨⟨.varOp n, x⟩, ?_, rfl⟩⟩
      rw [List.getElem?_append_right (le_refl _)]
      simp
  | unary k e ih =>
    intro env t₀ t' r val h
    obtain ⟨t₁, i, a, h₁, hg, ht, hr, hv⟩ := record_unary_inv h
    obtain ⟨⟨blk, hblk⟩, hle, hlen, -⟩ := ih env t₀ t₁ i a h₁
    subst ht hr hv hblk
    refine ⟨⟨blk ++ [⟨.unOp k i, unValue k a⟩], by simp⟩, by simp,
      by simp
         try omega,
      ⟨⟨.unOp k i, unValue k a⟩, ?_, rfl⟩⟩
    rw [List.getElem?_append_right (le_refl _)]
    simp
  | binary k l r ihl ihr =>
    intro env t₀ t' rr val h
    obtain ⟨t₁, i, a, t₂, j, b, h₁, h₂, hg, ht, hr, hv⟩ := record_binary_inv h
    obtain ⟨⟨blk₁, hblk₁⟩, hle₁, hlen₁, -⟩ := ihl env t₀ t₁ i a h₁
    obtain ⟨⟨blk₂, hblk₂⟩, hle₂, hlen₂, -⟩ := ihr env t₁ t₂ j b h₂
    subst ht hr hv hblk₁ hblk₂
    refine ⟨⟨blk₁ ++ blk₂ ++ [⟨.binOp k i j, binValue k a b⟩], by simp⟩,
      ?_,
      by simp
         try omega,
      ⟨⟨.binOp k i j, binValue k a b⟩, ?_, rfl⟩⟩
    · simp at hle₂ ⊢
      try omega
    · rw [List.getElem?_append_right (le_refl _)]
      simp

/-- Values agree between the recording pass and dual evaluation. -/
theorem record_dual_val (e : Expr) :
    ∀ (env : Env) (v : String) (t₀ t' : Tape) (r : ℕ) (val : ℝ)
      (dn : DualNumber),
      record e env t₀ = .ok (t', r, val) →
      dualEval e (fwdEnv env v) = .ok dn → dn.val = val := by
  induction e with
  | const q =>
    intro env v t₀ t' r val dn h hd
    simp only [record, Except.ok.injEq, Prod.mk.injEq] at h
    simp only [dualEval, Except.ok.injEq] at hd
    rw [← hd]
    exact h.2.2.symm ▸ rfl
  | var n =>
    intro env v t₀ t' r val dn h hd
    cases he : env n with
    | none => simp [record, he] at h
    | some x =>
      simp only [record, he, Except.ok.injEq, Prod.mk.injEq] at h
      simp only [dualEval, fwdEnv, he, Option.map_some] at hd
      cases hd
      exact h.2.2.symm ▸ rfl
  | unary k e ih =>
    intro env v t₀ t' r val dn h hd
    obtain ⟨t₁, i, a, h₁, -, -, -, hv⟩ := record_unary_inv h
    obtain ⟨da, hda, -, hdn⟩ := dual_unary_inv hd
    have := ih env v t₀ t₁ i a da h₁ hda
    subst hdn hv
    simp [this]
  | binary k l r ihl ihr =>
    intro env v t₀ t' rr val dn h hd
    obtain ⟨t₁, i, a, t₂, j, b, h₁, h₂, -, -, -, hv⟩ := record_binary_inv h
    obtain ⟨da, db, hda, hdb, -, hdn⟩ := dual_binary_inv hd
    have ha := ihl env v t₀ t₁ i a da h₁ hda
    have hb := ihr env v t₁ t₂ j b db h₂ hdb
    subst hdn hv
    cases k <;> simp [dualBin, binValue, ha, hb]

/-- The dual-number derivative of a binary operation is the linear
combination of the operand derivatives weighted by the local partial
derivatives used by the backward pass. -/
theorem dualBin_der_eq (k : BinKind) (a b : DualNumber)
    (hg : ¬ binBadAD k a.val b.val) :
    (dualBin k a b).der
      = binPartialL k a.val b.val * a.der
        + binPartialR k a.val b.val * b.der := by
  cases k with
  | add => simp [dualBin, binPartialL, binPartialR]
  | sub => simp [dualBin, binPartialL, binPartialR]; ring
  | mul => simp [dualBin, binPartialL, binPartialR]; ring
  | div =>
    simp only [binBadAD] at hg
    simp only [dualBin, binPartialL, binPartialR]
    field_simp
    ring
  | pow =>
    simp only [binBadAD, not_le] at hg
    have ha : a.val ≠ 0 := ne_of_gt hg
    simp only [dualBin, binPartialL, binPartialR]
    field_simp
    ring

theorem addAdj_eval (adj : ℕ → ℝ) (k : ℕ) (c : ℝ) (j : ℕ) :
    addAdj adj k c j = if j = k then adj j + c else adj j := rfl

/-- Splitting a backward-pass run into two consecutive segments. -/
theorem processCount_add (t : Tape) (c₁ : ℕ) :
    ∀ (adj : ℕ → ℝ) (top c₂ : ℕ),
      processCount t adj top (c₁ + c₂)
        = processCount t (processCount t adj top c₁) (top - c₁) c₂ := by
  induction c₁ with
  | zero => intro adj top c₂; simp [processCount]
  | succ c ih =>
    intro adj top c₂
    have hshift : c + 1 + c₂ = (c + c₂) + 1 := by omega
    rw [hshift]
    show processCount t (stepBack t adj (top - 1)) (top - 1) (c + c₂) = _
    rw [ih]
    have : top - (c + 1) = top - 1 - c := by omega
    rw [this]
    rfl

theorem processCount_one (t : Tape) (adj : ℕ → ℝ) (top : ℕ) :
    processCount t adj top 1 = stepBack t adj (top - 1) := rfl

/-- Splitting a segment adjoint sum. -/
theorem segVarSum_add (t : Tape) (adj : ℕ → ℝ) (v : String)
    (lo len₁ len₂ : ℕ) :
    segVarSum t adj v lo (len₁ + len₂)
      = segVarSum t adj v lo len₁ + segVarSum t adj v (lo + len₁) len₂ := by
  unfold segVarSum
  rw [List.range_add, List.map_append, List.sum_append, List.map_map]
  have hfun : ∀ p ∈ List.range len₂,
      ((fun p => entryVarContrib (t[(lo + p)]?) v * adj (lo + p)) ∘
        (fun x => len₁ + x)) p
        = (fun p => entryVarContrib (t[(lo + len₁ + p)]?) v
            * adj (lo + len₁ + p)) p := by
    intro p hp
    simp only [Function.comp_apply]
    rw [← Nat.add_assoc]
  rw [List.map_congr_left hfun]

theorem segVarSum_one (t : Tape) (adj : ℕ → ℝ) (v : String) (lo : ℕ) :
    segVarSum t adj v lo 1 = entryVarContrib (t[lo]?) v * adj lo := by
  simp [segVarSum, List.range_succ]

/-- A segment adjoint sum only depends on the tape entries and adjoints
inside the segment. -/
theorem segVarSum_congr (t₁ t₂ : Tape) (adj₁ adj₂ : ℕ → ℝ) (v : String)
    (lo len : ℕ)
    (ht : ∀ p, p < len → t₁[(lo + p)]? = t₂[(lo + p)]?)
    (ha : ∀ p, p < len → adj₁ (lo + p) = adj₂ (lo + p)) :
    segVarSum t₁ adj₁ v lo len = segVarSum t₂ adj₂ v lo len := by
  unfold segVarSum
  congr 1
  apply List.map_congr_left
  intro p hp
  rw [List.mem_range] at hp
  rw [ht p hp, ha p hp]

theorem get?_append_of_lt (t post : Tape) (p : ℕ) (hp : p < t.length) :
    (t ++ post)[p]? = t[p]? := by
  rw [List.getElem?_append_left hp]

theorem get?_append_last (t : Tape) (en : TapeEntry) :
    (t ++ [en])[t.length]? = some en := by
  rw [List.getElem?_append_right (le_refl _)]
  simp

/-- Key lemma of reverse-mode correctness: running the backward pass over
the block of tape entries recorded for `e` leaves every adjoint outside the
block unchanged, and accumulates over the block's entries reading the
variable `v` exactly the block root's incoming adjoint times the
forward-mode (dual-number) derivative of `e`. -/
theorem blockBack (v : String) (e : Expr) :
    ∀ (env : Env) (t₀ t' : Tape) (r : ℕ) (val : ℝ) (dn : DualNumber)
      (T : Tape) (adj : ℕ → ℝ),
      record e env t₀ = .ok (t', r, val) →
      dualEval e (fwdEnv env v) = .ok dn →
      (∀ p, t₀.length ≤ p → p < t'.length → T[p]? = t'[p]?) →
      (∀ p, t₀.length ≤ p → p < t'.length → p ≠ r → adj p = 0) →
      (∀ q, q < t₀.length ∨ t'.length ≤ q →
        processCount T adj t'.length (t'.length - t₀.length) q = adj q) ∧
      segVarSum T (processCount T adj t'.length (t'.length - t₀.length)) v
          t₀.length (t'.length - t₀.length)
        = adj r * dn.der := by
  induction e with
  | const q =>
    intro env t₀ t' r val dn T adj hrec hd hT hz
    simp only [record, Except.ok.injEq, Prod.mk.injEq] at hrec
    obtain ⟨ht', hr, -⟩ := hrec
    simp only [dualEval, Except.ok.injEq] at hd
    subst ht' hr hd
    have hcount : (t₀ ++ [(⟨.constOp q, (q : ℝ)⟩ : TapeEntry)]).length
        - t₀.length = 1 := by simp
    have hget : T[t₀.length]? = some ⟨.constOp q, (q : ℝ)⟩ := by
      rw [hT t₀.length (le_refl _) (by simp), get?_append_last]
    have hstep : stepBack T adj t₀.length = adj := by
      simp [stepBack, hget]
    have hPC : processCount T adj
        (t₀ ++ [(⟨.constOp q, (q : ℝ)⟩ : TapeEntry)]).length 1 = adj := by
      rw [processCount_one]
      simp only [List.length_append, List.length_cons, List.length_nil]
      have : t₀.length + (0 + 1) - 1 = t₀.length := by omega
      rw [this, hstep]
    rw [hcount, hPC]
    refine ⟨fun q _ => rfl, ?_⟩
    rw [segVarSum_one, hget]
    simp [entryVarContrib]
  | var n =>
    intro env t₀ t' r val dn T adj hrec hd hT hz
    cases he : env n with
    | none => simp [record, he] at hrec
    | some x =>
      simp only [record, he, Except.ok.injEq, Prod.mk.injEq] at hrec
      obtain ⟨ht', hr, -⟩ := hrec
      simp only [dualEval, fwdEnv, he, Option.map_some', Except.ok.injEq]
        at hd
      subst ht' hr
      have hcount : (t₀ ++ [(⟨.varOp n, x⟩ : TapeEntry)]).length
          - t₀.length = 1 := by simp
      have hget : T[t₀.length]? = some ⟨.varOp n, x⟩ := by
        rw [hT t₀.length (le_refl _) (by simp), get?_append_last]
      have hstep : stepBack T adj t₀.length = adj := by
        simp [stepBack, hget]
      have hPC : processCount T adj
          (t₀ ++ [(⟨.varOp n, x⟩ : TapeEntry)]).length 1 = adj := by
        rw [processCount_one]
        simp only [List.length_append, List.length_cons, List.length_nil]
        have : t₀.length + (0 + 1) - 1 = t₀.length := by omega
        rw [this, hstep]
      rw [hcount, hPC]
      refine ⟨fun q _ => rfl, ?_⟩
      rw [segVarSum_one, hget]
      rw [← hd]
      simp only [entryVarContrib]
      by_cases hnv : n = v <;> simp [hnv, mul_comm]
  | unary k e ih =>
    intro env t₀ t' r val dn T adj hrec hd hT hz
    obtain ⟨t₁, i, a, h₁, hg, ht', hr, hval⟩ := record_unary_inv hrec
    obtain ⟨da, hda, hgd, hdn⟩ := dual_unary_inv hd
    obtain ⟨⟨blkE, hblkE⟩, hleE, hlenE, enE, hgetE, hvalE⟩ :=
      record_shape e env t₀ t₁ i a h₁
    have hvda : da.val = a := record_dual_val e env v t₀ t₁ i a da h₁ hda
    have hlt' : t'.length = t₁.length + 1 := by
      subst ht'; simp
    have hle01 : t₀.length ≤ t₁.length := by omega
    have hri : i ≠ r := by omega
    -- the root entry of the block
    have hgetr : T[r]? = some ⟨.unOp k i, unValue k a⟩ := by
      rw [hT r (by omega) (by omega), ht', hr, get?_append_last]
    -- value at the operand's root index
    have hgeti : T[i]? = some enE := by
      rw [hT i hleE (by omega), ht', get?_append_of_lt t₁ _ i (by omega),
        hgetE]
    have hvati : valueAt T i = a := by
      simp [valueAt, hgeti, hvalE]
    -- one backward step at the root
    set adj₁ : ℕ → ℝ := addAdj adj i (adj r * unDeriv k a) with hadj₁
    have hstep : stepBack T adj r = adj₁ := by
      simp only [stepBack, hgetr, hvati]
    have hPC : processCount T adj t'.length (t'.length - t₀.length)
        = processCount T adj₁ t₁.length (t₁.length - t₀.length) := by
      have hc : t'.length - t₀.length = 1 + (t₁.length - t₀.length) := by
        omega
      rw [hc, processCount_add, processCount_one]
      have h1 : t'.length - 1 = t₁.length := by omega
      rw [hr] at hstep
      rw [h1, hstep]
    -- apply the induction hypothesis to the operand block
    have hT₁ : ∀ p, t₀.length ≤ p → p < t₁.length →
        T[p]? = t₁[p]? := by
      intro p hp₀ hp₁
      rw [hT p hp₀ (by omega), ht', get?_append_of_lt t₁ _ p hp₁]
    have hz₁ : ∀ p, t₀.length ≤ p → p < t₁.length → p ≠ i → adj₁ p = 0 := by
      intro p hp₀ hp₁ hpi
      rw [hadj₁, addAdj_eval, if_neg hpi]
      exact hz p hp₀ (by omega) (by omega)
    obtain ⟨out₁, sum₁⟩ :=
      ih env t₀ t₁ i a da T adj₁ h₁ hda hT₁ hz₁
    constructor
    · intro q hq
      rw [hPC]
      have : adj₁ q = adj q := by
        rw [hadj₁, addAdj_eval, if_neg (by omega)]
      rw [← this]
      exact out₁ q (by omega)
    · rw [hPC]
      have hc : t'.length - t₀.length = (t₁.length - t₀.length) + 1 := by
        omega
      rw [hc, segVarSum_add]
      have h1 : t₀.length + (t₁.length - t₀.length) = t₁.length := by omega
      rw [h1, segVarSum_one]
      have hgett₁ : T[t₁.length]? = some ⟨.unOp k i, unValue k a⟩ := by
        rw [← hr]; exact hgetr
      rw [hgett₁]
      simp only [entryVarContrib, mul_comm, sum₁]
      have hadji : adj₁ i = adj r * unDeriv k a := by
        rw [hadj₁, addAdj_eval, if_pos rfl,
          hz i hleE (by omega) hri, zero_add]
      rw [hadji, hdn, hvda]
      ring
  | binary k l r ihl ihr =>
    intro env t₀ t' rr val dn T adj hrec hd hT hz
    obtain ⟨t₁, i, a, t₂, j, b, h₁, h₂, hg, ht', hr, hval⟩ :=
      record_binary_inv hrec
    obtain ⟨da, db, hda, hdb, hgd, hdn⟩ := dual_binary_inv hd
    obtain ⟨⟨blkL, hblkL⟩, hleL, hlenL, enL, hgetL, hvalL⟩ :=
      record_shape l env t₀ t₁ i a h₁
    obtain ⟨⟨blkR, hblkR⟩, hleR, hlenR, enR, hgetR, hvalR⟩ :=
      record_shape r env t₁ t₂ j b h₂
    have hvda : da.val = a := record_dual_val l env v t₀ t₁ i a da h₁ hda
    have hvdb : db.val = b := record_dual_val r env v t₁ t₂ j b db h₂ hdb
    have hlt' : t'.length = t₂.length + 1 := by
      subst ht'; simp
    have hle01 : t₀.length ≤ t₁.length := by omega
    have hle12 : t₁.length ≤ t₂.length := by omega
    have hirr : i ≠ rr := by omega
    have hjrr : j ≠ rr := by omega
    have hij : i ≠ j := by omega
    -- the root entry of the block
    have hgetr : T[rr]? = some ⟨.binOp k i j, binValue k a b⟩ := by
      rw [hT rr (by omega) (by omega), ht', hr, get?_append_last]
    have hgeti : T[i]? = some enL := by
      rw [hT i hleL (by omega), ht', get?_append_of_lt t₂ _ i (by omega),
        hblkR, get?_append_of_lt t₁ _ i (by omega), hgetL]
    have hgetj : T[j]? = some enR := by
      rw [hT j (by omega) (by omega), ht',
        get?_append_of_lt t₂ _ j (by omega), hgetR]
    have hvati : valueAt T i = a := by
      simp [valueAt, hgeti, hvalL]
    have hvatj : valueAt T j = b := by
      simp [valueAt, hgetj, hvalR]
    -- one backward step at the root
    set adj₁ : ℕ → ℝ :=
      addAdj (addAdj adj i (adj rr * binPartialL k a b)) j
        (adj rr * binPartialR k a b) with hadj₁
    have hstep : stepBack T adj rr = adj₁ := by
      simp only [stepBack, hgetr, hvati, hvatj]
    -- process the right block
    have hT₂ : ∀ p, t₁.length ≤ p → p < t₂.length →
        T[p]? = t₂[p]? := by
      intro p hp₀ hp₁
      rw [hT p (by omega) (by omega), ht', get?_append_of_lt t₂ _ p hp₁]
    have hz₂ : ∀ p, t₁.length ≤ p → p < t₂.length → p ≠ j → adj₁ p = 0 := by
      intro p hp₀ hp₁ hpj
      rw [hadj₁, addAdj_eval, if_neg hpj, addAdj_eval, if_neg (by omega)]
      exact hz p (by omega) (by omega) (by omega)
    obtain ⟨out₂, sum₂⟩ :=
      ihr env t₁ t₂ j b db T adj₁ h₂ hdb hT₂ hz₂
    set adj₂ : ℕ → ℝ := processCount T adj₁ t₂.length
      (t₂.length - t₁.length) with hadj₂
    -- process the left block
    have hT₁ : ∀ p, t₀.length ≤ p → p < t₁.length →
        T[p]? = t₁[p]? := by
      intro p hp₀ hp₁
      rw [hT p hp₀ (by omega), ht', get?_append_of_lt t₂ _ p (by omega),
        hblkR, get?_append_of_lt t₁ _ p hp₁]
    have hz₁ : ∀ p, t₀.length ≤ p → p < t₁.length → p ≠ i → adj₂ p = 0 := by
      intro p hp₀ hp₁ hpi
      rw [out₂ p (by omega)]
      rw [hadj₁, addAdj_eval, if_neg (by omega), addAdj_eval, if_neg hpi]
      exact hz p hp₀ (by omega) (by omega)
    obtain ⟨out₁, sum₁⟩ :=
      ihl env t₀ t₁ i a da T adj₂ h₁ hda hT₁ hz₁
    set adj₃ : ℕ → ℝ := processCount T adj₂ t₁.length
      (t₁.length - t₀.length) with hadj₃
    -- the full run decomposes into root step, right block, left block
    have hPC : processCount T adj t'.length (t'.length - t₀.length)
        = adj₃ := by
      have hc : t'.length - t₀.length
          = (1 + (t₂.length - t₁.length)) + (t₁.length - t₀.length) := by
        omega
      rw [hc, processCount_add, processCount_add, processCount_one]
      have h1 : t'.length - 1 = t₂.length := by omega
      have h2 : t'.length - (1 + (t₂.length - t₁.length)) = t₁.length := by
        omega
      rw [hr] at hstep
      rw [h1, h2, hstep, ← hadj₂, ← hadj₃]
    constructor
    · intro q hq
      rw [hPC]
      rw [out₁ q (by omega), out₂ q (by omega)]
      rw [hadj₁, addAdj_eval, if_neg (by omega), addAdj_eval,
        if_neg (by omega)]
    · rw [hPC]
      have hc : t'.length - t₀.length
          = (t₁.length - t₀.length) + ((t₂.length - t₁.length) + 1) := by
        omega
      rw [hc, segVarSum_add, segVarSum_add]
      have h1 : t₀.length + (t₁.length - t₀.length) = t₁.length := by omega
      have h2 : t₁.length + (t₂.length - t₁.length) = t₂.length := by omega
      rw [h1, h2, segVarSum_one]
      -- the root entry contributes nothing to the variable sum
      have hgett₂ : T[t₂.length]? = some ⟨.binOp k i j, binValue k a b⟩
        := by rw [← hr]; exact hgetr
      rw [hgett₂]
      simp only [entryVarContrib, zero_mul, add_zero]
      -- the left block sum under adj₃
      have hsumL : segVarSum T adj₃ v t₀.length (t₁.length - t₀.length)
          = adj₂ i * da.der := sum₁
      -- the right block sum is unchanged by processing the left block
      have hsumR : segVarSum T adj₃ v t₁.length (t₂.length - t₁.length)
          = adj₁ j * db.der := by
        rw [← sum₂]
        apply segVarSum_congr
        · intro p hp; rfl
        · intro p hp
          rw [hadj₃]
          exact out₁ (t₁.length + p) (by omega)
      rw [hsumL, hsumR]
      have hai : adj₂ i = adj rr * binPartialL k a b := by
        rw [out₂ i (by omega), hadj₁, addAdj_eval, if_neg hij,
          addAdj_eval, if_pos rfl, hz i hleL (by omega) hirr, zero_add]
      have haj : adj₁ j = adj rr * binPartialR k a b := by
        rw [hadj₁, addAdj_eval, if_pos rfl, addAdj_eval, if_neg hij.symm,
          hz j (by omega) (by omega) hjrr, zero_add]
      rw [hai, haj, hdn, dualBin_der_eq k da db hgd, hvda, hvdb]
      ring

/-! ## C2: forward-mode and reverse-mode derivatives agree -/

/-- C2.  For every differentiable expression, variable and interior point
(carried by the environment) at which both modes succeed, the forward-mode
(dual-number) derivative and the reverse-mode (tape-based) derivative are
exactly equal in idealised real arithmetic — in particular they agree
within any fixed relative tolerance such as 1e-6. -/
theorem forward_reverse_agree (ast : Expr) (env : Env) (v : String)
    (d d' : ℝ) (hf : forwardDeriv ast env v = .ok d)
    (hr : reverseDeriv ast env v = .ok d') :
    d' = d := by
  unfold forwardDeriv at hf
  cases hdual : dualEval ast (fwdEnv env v) with
  | error err => rw [hdual] at hf; simp [Except.map] at hf
  | ok dn =>
    rw [hdual] at hf
    simp only [Except.map, Except.ok.injEq] at hf
    unfold reverseDeriv at hr
    cases hrec : record ast env [] with
    | error err => rw [hrec] at hr; simp [bind, Except.bind] at hr
    | ok tri =>
      obtain ⟨t, r, val⟩ := tri
      rw [hrec] at hr
      simp only [bind, Except.bind, Except.ok.injEq] at hr
      obtain ⟨-, -, hlen, -⟩ := record_shape ast env [] t r val hrec
      have hz : ∀ p, ([] : Tape).length ≤ p → p < t.length → p ≠ r →
          initAdj t.length p = 0 := by
        intro p _ _ hpr
        have : p ≠ t.length - 1 := by omega
        simp [initAdj, this]
      obtain ⟨-, hsum⟩ := blockBack v ast env [] t r val dn t
        (initAdj t.length) hrec hdual (fun p _ _ => rfl) hz
      simp only [List.length_nil, Nat.sub_zero] at hsum
      have hone : initAdj t.length r = 1 := by
        have : r = t.length - 1 := by omega
        simp [initAdj, this]
      rw [hone, one_mul] at hsum
      rw [← hr, varAdjSum, hsum, hf]

/-- Witness for C2: differentiating `x * x` at `x = 2`, forward mode gives
4 and reverse mode agrees. -/
theorem forward_reverse_agree_witness :
    ∃ d' : ℝ,
      reverseDeriv (.binary .mul (.var "x") (.var "x")) (xEnv 2) "x"
        = .ok d' ∧ d' = 4 := by
  have hf : forwardDeriv (.binary .mul (.var "x") (.var "x")) (xEnv 2) "x"
      = .ok 4 := by
    simp [forwardDeriv, dualEval, fwdEnv, xEnv, dualBin, binBadAD, bind,
      Except.bind, Except.map]
    norm_num
  have hr : ∃ d' : ℝ,
      reverseDeriv (.binary .mul (.var "x") (.var "x")) (xEnv 2) "x"
        = .ok d' := by
    simp only [reverseDeriv, record, xEnv]
    simp [binBadAD, bind, Except.bind]
  obtain ⟨d', hd'⟩ := hr
  exact ⟨d', hd',
    forward_reverse_agree (.binary .mul (.var "x") (.var "x")) (xEnv 2)
      "x" 4 d' hf hd'⟩

/-! ## Mode-3 critical-point search

Modelled from the spec: find zero crossings of the first derivative via
Newton's method seeded at multiple starting points, with bisection fallback
when the Newton descent fails, both capped at a fixed maximum iteration
count with a convergence tolerance.  A seed that does not converge within
the budget yields `none` ("not found") instead of looping: the recursion is
structural on the remaining iteration budget, so termination holds for
every input by construction. -/

/-- Fixed maximum iteration count of the mode-3 root search. -/
def maxSearchIterations : ℕ := 100

/-- Convergence tolerance of the mode-3 root search. -/
noncomputable def convergenceTol : ℝ := 1 / 10 ^ 7

/-- Newton's method on a partially defined function `f` with derivative
oracle `fd`, capped by the iteration budget; `none` is "not found". -/
noncomputable def newtonIterate (f fd : ℝ → Option ℝ) (tol : ℝ) :
    ℕ → ℝ → Option ℝ
  | 0, _ => none
  | fuel + 1, x =>
    match f x with
    | none => none
    | some fx =>
      if |fx| ≤ tol then some x
      else
        match fd x with
        | none => none
        | some dfx =>
          if dfx = 0 then none
          else newtonIterate f fd tol fuel (x - fx / dfx)

/-- Bisection fallback on a bracketing interval, capped by the iteration
budget; `none` is "not found". -/
noncomputable def bisect (f : ℝ → Option ℝ) (tol : ℝ) :
    ℕ → ℝ → ℝ → Option ℝ
  | 0, _, _ => none
  | fuel + 1, lo, hi =>
    let mid := (lo + hi) / 2
    match f lo, f mid with
    | some flo, some fmid =>
      if |fmid| ≤ tol then some mid
      else if flo * fmid ≤ 0 then bisect f tol fuel lo mid
      else bisect f tol fuel mid hi
    | _, _ => none

/-- The first derivative of `ast` at `x`, as the function whose zero
crossings mode 3 searches for; evaluation failure gives `none`. -/
noncomputable def derivAt (ast : Expr) (x : ℝ) : Option ℝ :=
  (forwardDeriv ast (xEnv x) "x").toOption

/-- Numerical second derivative of `ast` at `x` (centered difference of the
first derivative), used as the Newton derivative oracle. -/
noncomputable def secondDerivAt (ast : Expr) (x : ℝ) : Option ℝ := do
  let h : ℝ := 1 / 10 ^ 4
  let dPlus ← derivAt ast (x + h)
  let dMinus ← derivAt ast (x - h)
  some ((dPlus - dMinus) / (2 * h))

/-- Search from one seed: Newton first, bisection fallback on a unit
bracket around the seed when Newton reports "not found". -/
noncomputable def searchFromSeed (ast : Expr) (x0 : ℝ) : Option ℝ :=
  match newtonIterate (derivAt ast) (secondDerivAt ast) convergenceTol
      maxSearchIterations x0 with
  | some x => some x
  | none => bisect (derivAt ast) convergenceTol maxSearchIterations
      (x0 - 1) (x0 + 1)

/-- Mode-3 critical-point search: one result per seed, `none` marking
"not found". -/
noncomputable def criticalPointSearch (ast : Expr) (seeds : List ℝ) :
    List (Option ℝ) :=
  seeds.map (searchFromSeed ast)

/-- A successful Newton descent ends at a point where `|f x| ≤ tol`. -/
theorem newtonIterate_some (f fd : ℝ → Option ℝ) (tol : ℝ) :
    ∀ (fuel : ℕ) (x0 x : ℝ), newtonIterate f fd tol fuel x0 = some x →
      ∃ fx : ℝ, f x = some fx ∧ |fx| ≤ tol := by
  intro fuel
  induction fuel with
  | zero => intro x0 x h; simp [newtonIterate] at h
  | succ fuel ih =>
    intro x0 x h
    rw [newtonIterate] at h
    split at h
    · exact absurd h (by simp)
    · rename_i fx0 hf
      split at h
      · rename_i hc
        cases h
        exact ⟨fx0, hf, hc⟩
      · split at h
        · exact absurd h (by simp)
        · split at h
          · exact absurd h (by simp)
          · exact ih _ x h

/-- A successful bisection ends at a point where `|f x| ≤ tol`. -/
theorem bisect_some (f : ℝ → Option ℝ) (tol : ℝ) :
    ∀ (fuel : ℕ) (lo hi x : ℝ), bisect f tol fuel lo hi = some x →
      ∃ fx : ℝ, f x = some fx ∧ |fx| ≤ tol := by
  intro fuel
  induction fuel with
  | zero => intro lo hi x h; simp [bisect] at h
  | succ fuel ih =>
    intro lo hi x h
    rw [bisect] at h
    split at h
    · rename_i flo fmid hlo hmid
      split at h
      · rename_i hc
        cases h
        exact ⟨fmid, hmid, hc⟩
      · split at h
        · exact ih lo ((lo + hi) / 2) x h
        · exact ih ((lo + hi) / 2) hi x h
    · exact absurd h (by simp)

/-! ## C8: the mode-3 search terminates with capped iterations -/

/-- C8.  The mode-3 critical-point search (Newton seeded at multiple
starting points with bisection fallback) is total by construction — its
recursion is structural on the iteration budget, which is capped at
`maxSearchIterations` — and on every input it returns one answer per seed:
either a point where the derivative magnitude is within the convergence
tolerance, or `none` ("not found"); an exhausted budget (budget 0) always
reports "not found" rather than looping forever. -/
theorem criticalPointSearch_total (ast : Expr) (seeds : List ℝ) :
    (criticalPointSearch ast seeds).length = seeds.length ∧
    (∀ res ∈ criticalPointSearch ast seeds, ∀ x : ℝ, res = some x →
      ∃ dx : ℝ, derivAt ast x = some dx ∧ |dx| ≤ convergenceTol) ∧
    (∀ x0 : ℝ,
      newtonIterate (derivAt ast) (secondDerivAt ast) convergenceTol 0 x0
        = none) ∧
    (∀ lo hi : ℝ, bisect (derivAt ast) convergenceTol 0 lo hi = none) := by
  refine ⟨by simp [criticalPointSearch], ?_, fun x0 => rfl,
    fun lo hi => rfl⟩
  intro res hres x hx
  rw [criticalPointSearch, List.mem_map] at hres
  obtain ⟨x0, -, hres⟩ := hres
  rw [← hres] at hx
  rw [searchFromSeed] at hx
  cases hn : newtonIterate (derivAt ast) (secondDerivAt ast)
      convergenceTol maxSearchIterations x0 with
  | some y =>
    rw [hn] at hx
    cases hx
    exact newtonIterate_some _ _ _ _ x0 x hn
  | none =>
    rw [hn] at hx
    exact bisect_some _ _ _ (x0 - 1) (x0 + 1) x hx

/-- Witness for C8: searching the constant expression `1` from seed 0
immediately converges (its derivative is identically 0). -/
theorem criticalPointSearch_total_witness :
    some (0 : ℝ) ∈ criticalPointSearch (.const 1) [0] ∧
    ∃ dx : ℝ, derivAt (.const 1) (0 : ℝ) = some dx ∧
      |dx| ≤ convergenceTol := by
  have hd : derivAt (.const 1) (0 : ℝ) = some 0 := by
    simp [derivAt, forwardDeriv, dualEval, Except.map, Except.toOption]
  have htol : |(0 : ℝ)| ≤ convergenceTol := by
    rw [convergenceTol]
    norm_num
  have hnewton : newtonIterate (derivAt (.const 1))
      (secondDerivAt (.const 1)) convergenceTol maxSearchIterations 0
      = some 0 := by
    rw [show maxSearchIterations = 99 + 1 from rfl, newtonIterate, hd]
    simp [htol]
    intro hneg
    exfalso
    rw [convergenceTol] at hneg
    norm_num at hneg
  have hmem : some (0 : ℝ) ∈ criticalPointSearch (.const 1) [0] := by
    simp [criticalPointSearch, searchFromSeed, hnewton]
  exact ⟨hmem,
    (criticalPointSearch_total (.const 1) [0]).2.1 (some 0) hmem 0 rfl⟩

/-! ## JNI boundary (embedded from `native-bridge.cpp`)

The four boundary functions are pure glue around the engine; each is
embedded as a function from an oracle (whether each `GetStringUTFChars`
pin succeeds, which result buffer the engine returns, and the id of the
Java string built from it) to the ordered trace of observable boundary
actions together with the returned `jstring` (`none` = null). -/

/-- One observable action at the JNI boundary. -/
inductive BEvent where
  | pin (arg : ℕ) (ok : Bool)
  | unpin (arg : ℕ)
  | engineCall (buf : ℕ)
  | newStringUTF (buf : ℕ)
  | freeString (buf : ℕ)
deriving DecidableEq, Repr

/-- Oracle for one boundary call: pin success per string argument, the
result buffer the engine returns, and the Java string id created from it.
The engine guarantees each call's result buffer is fresh (never aliased
across calls), so distinct calls carry distinct `engineBuf` values. -/
structure JniWorld where
  pinOk : ℕ → Bool
  engineBuf : ℕ
  javaStr : ℕ

/-- `Java_com_kistaverk_FunctionAnalysisViewModel_nativeAnalyzeFunction`
(native-bridge.cpp:22-49): pin the expression string (returning null on
failure), call `analyze_function`, release the pinned string, convert the
result buffer to a Java string, free the buffer, return. -/
def nativeAnalyzeFunction (w : JniWorld) : List BEvent × Option ℕ :=
  if w.pinOk 0 = false then ([.pin 0 false], none)
  else ([.pin 0 true, .engineCall w.engineBuf, .unpin 0,
    .newStringUTF w.engineBuf, .freeString w.engineBuf], some w.javaStr)

/-- `Java_com_kistaverk_MathToolViewModel_nativeComputeDerivative`
(native-bridge.cpp:51-83): pin the expression and variable strings; if
either pin failed, release whichever succeeded and return null; otherwise
call `compute_derivative`, release both strings, convert the result buffer
and free it. -/
def nativeComputeDerivative (w : JniWorld) : List BEvent × Option ℕ :=
  let e0 := w.pinOk 0
  let e1 := w.pinOk 1
  if e0 = false ∨ e1 = false then
    ([.pin 0 e0, .pin 1 e1]
      ++ (if e0 then [.unpin 0] else [])
      ++ (if e1 then [.unpin 1] else []), none)
  else ([.pin 0 true, .pin 1 true, .engineCall w.engineBuf, .unpin 0,
    .unpin 1, .newStringUTF w.engineBuf, .freeString w.engineBuf],
    some w.javaStr)

/-- `Java_com_kistaverk_VisualizationViewModel_nativeCreatePlot`
(native-bridge.cpp:85-113): same single-string shape as analyze, calling
`create_plot`. -/
def nativeCreatePlot (w : JniWorld) : List BEvent × Option ℕ :=
  if w.pinOk 0 = false then ([.pin 0 false], none)
  else ([.pin 0 true, .engineCall w.engineBuf, .unpin 0,
    .newStringUTF w.engineBuf, .freeString w.engineBuf], some w.javaStr)

/-- `Java_com_kistaverk_PerformanceAnalyzer_nativeBenchmarkFunction`
(native-bridge.cpp:115-141): same single-string shape as analyze, calling
`benchmark_function`. -/
def nativeBenchmarkFunction (w : JniWorld) : List BEvent × Option ℕ :=
  if w.pinOk 0 = false then ([.pin 0 false], none)
  else ([.pin 0 true, .engineCall w.engineBuf, .unpin 0,
    .newStringUTF w.engineBuf, .freeString w.engineBuf], some w.javaStr)

def isEngineEvent : BEvent → Bool
  | .engineCall _ => true
  | _ => false

def isFreeEvent : BEvent → Bool
  | .freeString _ => true
  | _ => false

/-- Whether an event touches the buffer `b`. -/
def mentionsBuf : BEvent → ℕ → Bool
  | .engineCall b, c => b = c
  | .newStringUTF b, c => b = c
  | .freeString b, c => b = c
  | _, _ => false

/-- Buffer discipline of one boundary-call trace for the buffer `b`:
exactly one engine call (producing `b`), exactly one release (of `b`, via
`free_string`), the release happening strictly after the buffer has been
consumed into a Java string (which happens strictly after it was
produced), and no event touching `b` after its release. -/
def BufferDiscipline (b : ℕ) (tr : List BEvent) : Prop :=
  tr.filter isEngineEvent = [.engineCall b] ∧
  tr.filter isFreeEvent = [.freeString b] ∧
  ∃ i j k : ℕ, i < j ∧ j < k ∧
    tr[i]? = some (.engineCall b) ∧
    tr[j]? = some (.newStringUTF b) ∧
    tr[k]? = some (.freeString b) ∧
    ∀ m, k < m → ∀ ev, tr[m]? = some ev → mentionsBuf ev b = false

/-! ## C9: each successful call frees its one result buffer exactly once -/

/-- C9.  For every successful invocation of each of the four boundary
functions, the trace contains exactly one engine call — producing one
result buffer — and exactly one `free_string`, which releases exactly that
buffer, strictly after it has been consumed into the returned Java string;
no event touches the buffer after its release, so it is neither released
twice nor used after release.  Each call's buffer is its own (the engine
hands a fresh buffer to each call, modelled by the per-call oracle), so no
buffer is shared between calls. -/
theorem boundary_buffer_discipline (w : JniWorld) :
    ((nativeAnalyzeFunction w).2.isSome →
      BufferDiscipline w.engineBuf (nativeAnalyzeFunction w).1) ∧
    ((nativeComputeDerivative w).2.isSome →
      BufferDiscipline w.engineBuf (nativeComputeDerivative w).1) ∧
    ((nativeCreatePlot w).2.isSome →
      BufferDiscipline w.engineBuf (nativeCreatePlot w).1) ∧
    ((nativeBenchmarkFunction w).2.isSome →
      BufferDiscipline w.engineBuf (nativeBenchmarkFunction w).1) := by
  have single : ∀ tr : List BEvent,
      tr = [.pin 0 true, .engineCall w.engineBuf, .unpin 0,
        .newStringUTF w.engineBuf, .freeString w.engineBuf] →
      BufferDiscipline w.engineBuf tr := by
    intro tr htr
    subst htr
    refine ⟨by simp [isEngineEvent, isFreeEvent, List.filter],
      by simp [isEngineEvent, isFreeEvent, List.filter],
      1, 3, 4, by omega, by omega, rfl, rfl, rfl, ?_⟩
    intro m hm ev hev
    have : ([(.pin 0 true : BEvent), .engineCall w.engineBuf, .unpin 0,
        .newStringUTF w.engineBuf, .freeString w.engineBuf]).length ≤ m := by
      simp
      omega
    rw [List.getElem?_eq_none this] at hev
    cases hev
  refine ⟨?_, ?_, ?_, ?_⟩
  · intro hsome
    by_cases h0 : w.pinOk 0 = false
    · simp [nativeAnalyzeFunction, h0] at hsome
    · exact single _ (by simp [nativeAnalyzeFunction, h0])
  · intro hsome
    by_cases h0 : w.pinOk 0 = false
    · simp [nativeComputeDerivative, h0] at hsome
    · by_cases h1 : w.pinOk 1 = false
      · simp [nativeComputeDerivative, h0, h1] at hsome
      · refine ⟨by simp [nativeComputeDerivative, h0, h1, isEngineEvent,
          isFreeEvent, List.filter],
          by simp [nativeComputeDerivative, h0, h1, isEngineEvent,
            isFreeEvent, List.filter],
          2, 5, 6, by omega, by omega, ?_, ?_, ?_, ?_⟩
        · simp [nativeComputeDerivative, h0, h1]
        · simp [nativeComputeDerivative, h0, h1]
        · simp [nativeComputeDerivative, h0, h1]
        · intro m hm ev hev
          have hlen : (nativeComputeDerivative w).1.length ≤ m := by
            simp [nativeComputeDerivative, h0, h1]
            omega
          rw [List.getElem?_eq_none hlen] at hev
          cases hev
  · intro hsome
    by_cases h0 : w.pinOk 0 = false
    · simp [nativeCreatePlot, h0] at hsome
    · exact single _ (by simp [nativeCreatePlot, h0])
  · intro hsome
    by_cases h0 : w.pinOk 0 = false
    · simp [nativeBenchmarkFunction, h0] at hsome
    · exact single _ (by simp [nativeBenchmarkFunction, h0])

/-- Witness for C9 at a concrete oracle where every pin succeeds. -/
theorem boundary_buffer_discipline_witness :
    BufferDiscipline 7 (nativeAnalyzeFunction ⟨fun _ => true, 7, 3⟩).1 ∧
    BufferDiscipline 7 (nativeComputeDerivative ⟨fun _ => true, 7, 3⟩).1 := by
  have h := boundary_buffer_discipline ⟨fun _ => true, 7, 3⟩
  exact ⟨h.1 (by simp [nativeAnalyzeFunction]),
    h.2.1 (by simp [nativeComputeDerivative])⟩

/-! ## C10: pin failure returns null, skips the engine, releases pins -/

/-- C10.  For each of the four JNI entry points, if pinning any required
Java string argument fails (`GetStringUTFChars` returns null), the function
returns null, the engine is never invoked, and every string argument that
was successfully pinned before returning is released. -/
theorem boundary_pin_failure (w : JniWorld) :
    (w.pinOk 0 = false →
      (nativeAnalyzeFunction w).2 = none ∧
      (∀ ev ∈ (nativeAnalyzeFunction w).1, isEngineEvent ev = false) ∧
      (∀ a : ℕ, .pin a true ∈ (nativeAnalyzeFunction w).1 →
        .unpin a ∈ (nativeAnalyzeFunction w).1)) ∧
    (w.pinOk 0 = false ∨ w.pinOk 1 = false →
      (nativeComputeDerivative w).2 = none ∧
      (∀ ev ∈ (nativeComputeDerivative w).1, isEngineEvent ev = false) ∧
      (∀ a : ℕ, .pin a true ∈ (nativeComputeDerivative w).1 →
        .unpin a ∈ (nativeComputeDerivative w).1)) ∧
    (w.pinOk 0 = false →
      (nativeCreatePlot w).2 = none ∧
      (∀ ev ∈ (nativeCreatePlot w).1, isEngineEvent ev = false) ∧
      (∀ a : ℕ, .pin a true ∈ (nativeCreatePlot w).1 →
        .unpin a ∈ (nativeCreatePlot w).1)) ∧
    (w.pinOk 0 = false →
      (nativeBenchmarkFunction w).2 = none ∧
      (∀ ev ∈ (nativeBenchmarkFunction w).1, isEngineEvent ev = false) ∧
      (∀ a : ℕ, .pin a true ∈ (nativeBenchmarkFunction w).1 →
        .unpin a ∈ (nativeBenchmarkFunction w).1)) := by
  have singleFail : ∀ f : JniWorld → List BEvent × Option ℕ,
      (f w = ([.pin 0 false], none)) →
      (f w).2 = none ∧
      (∀ ev ∈ (f w).1, isEngineEvent ev = false) ∧
      (∀ a : ℕ, .pin a true ∈ (f w).1 → .unpin a ∈ (f w).1) := by
    intro f hf
    rw [hf]
    refine ⟨rfl, ?_, ?_⟩
    · intro ev hev
      simp at hev
      subst hev
      rfl
    · intro a ha
      simp at ha
  refine ⟨?_, ?_, ?_, ?_⟩
  · intro h0
    exact singleFail nativeAnalyzeFunction (by simp [nativeAnalyzeFunction, h0])
  · intro hor
    have hcond : w.pinOk 0 = false ∨ w.pinOk 1 = false := hor
    refine ⟨by simp [nativeComputeDerivative, hcond], ?_, ?_⟩
    · intro ev hev
      simp only [nativeComputeDerivative, if_pos hcond] at hev
      simp at hev
      rcases hev with h | h | h | h
      · subst h; rfl
      · subst h; rfl
      · rw [h.2]; rfl
      · rw [h.2]; rfl
    · intro a ha
      simp only [nativeComputeDerivative, if_pos hcond] at ha ⊢
      simp at ha ⊢
      rcases ha with ⟨h, hp⟩ | ⟨h, hp⟩ <;> subst h <;> simp_all
  · intro h0
    exact singleFail nativeCreatePlot (by simp [nativeCreatePlot, h0])
  · intro h0
    exact singleFail nativeBenchmarkFunction
      (by simp [nativeBenchmarkFunction, h0])

/-- Witness for C10 at a concrete oracle where every pin fails. -/
theorem boundary_pin_failure_witness :
    (nativeAnalyzeFunction ⟨fun _ => false, 7, 3⟩).2 = none ∧
    (nativeComputeDerivative ⟨fun _ => false, 7, 3⟩).2 = none := by
  have h := boundary_pin_failure ⟨fun _ => false, 7, 3⟩
  exact ⟨(h.1 rfl).1, (h.2.1 (Or.inl rfl)).1⟩

/-! ## Lexer and parser

Modelled from the spec: tokenize left-to-right (number literals,
identifiers, operators, parentheses); build the AST by precedence
climbing: `+ - * /` are left-associative, `^` is right-associative and
binds tightest, unary minus binds tighter than the other binary operators
but looser than `^`; parentheses override precedence; the named
single-argument functions consume exactly one parenthesized argument, and
an unknown identifier in call position is a parse error.  Parse errors
carry a reason (the position field is omitted here: no claim depends on
it).  The recursion is fuel-indexed; the fuel supplied by the entry points
always suffices, so exhaustion is unreachable. -/

/-- Parse errors: unmatched parentheses, unknown identifier used where a
function is expected, trailing unconsumed tokens, empty/truncated input,
and characters outside the lexical alphabet. -/
inductive ParseError where
  | unexpectedEnd
  | unexpectedToken
  | expectedRParen
  | unknownFunction (s : String)
  | trailingTokens
  | badChar
deriving DecidableEq, Repr

/-- Lexical tokens: number literal, identifier, operator, parentheses. -/
inductive Token where
  | num (n : ℕ)
  | ident (s : String)
  | op (c : Char)
  | lparen
  | rparen
deriving DecidableEq, Repr

/-- Scan a run of decimal digits, accumulating the value. -/
def lexNum (acc : ℕ) : List Char → ℕ × List Char
  | [] => (acc, [])
  | c :: cs =>
    if c.isDigit then lexNum (acc * 10 + (c.toNat - 48)) cs
    else (acc, c :: cs)

/-- Scan a run of letters. -/
def lexIdent : List Char → List Char × List Char
  | [] => ([], [])
  | c :: cs =>
    if c.isAlpha then
      let (nm, rest) := lexIdent cs
      (c :: nm, rest)
    else ([], c :: cs)

/-- Tokenize a character stream left-to-right. -/
def tokenize : ℕ → List Char → Except ParseError (List Token)
  | 0, _ => .error .badChar
  | _ + 1, [] => .ok []
  | fuel + 1, c :: cs =>
    if c = ' ' then tokenize fuel cs
    else if c.isDigit then
      let nr := lexNum (c.toNat - 48) cs
      (tokenize fuel nr.2).map (fun ts => .num nr.1 :: ts)
    else if c.isAlpha then
      let nr := lexIdent cs
      (tokenize fuel nr.2).map
        (fun ts => .ident (String.mk (c :: nr.1)) :: ts)
    else if c = '(' then (tokenize fuel cs).map (fun ts => .lparen :: ts)
    else if c = ')' then (tokenize fuel cs).map (fun ts => .rparen :: ts)
    else if c = '+' ∨ c = '-' ∨ c = '*' ∨ c = '/' ∨ c = '^' then
      (tokenize fuel cs).map (fun ts => .op c :: ts)
    else .error .badChar

/-- Lex a string; the fuel covers the whole input. -/
def lex (s : String) : Except ParseError (List Token) :=
  tokenize (s.data.length + 1) s.data

/-- Binary operator of an operator character. -/
def binOfChar : Char → Option BinKind
  | '+' => some .add
  | '-' => some .sub
  | '*' => some .mul
  | '/' => some .div
  | '^' => some .pow
  | _ => none

/-- Operator character of a binary operator. -/
def charOf : BinKind → Char
  | .add => '+'
  | .sub => '-'
  | .mul => '*'
  | .div => '/'
  | .pow => '^'

/-- Left binding power: `+ -` lowest, `* /` middle, `^` highest. -/
def lbp : BinKind → ℕ
  | .add => 1
  | .sub => 1
  | .mul => 2
  | .div => 2
  | .pow => 3

/-- Binding power for the right operand: equal to `lbp` for the
left-associative operators, one less for the right-associative `^`. -/
def rbp : BinKind → ℕ
  | .add => 1
  | .sub => 1
  | .mul => 2
  | .div => 2
  | .pow => 2

/-- Name of a named single-argument function. -/
def nameOf : UnKind → String
  | .neg => "neg"
  | .sin => "sin"
  | .cos => "cos"
  | .tan => "tan"
  | .exp => "exp"
  | .ln => "ln"
  | .sqrt => "sqrt"
  | .abs => "abs"

/-- The named single-argument functions recognised in call position. -/
def funcOfName : String → Option UnKind
  | "sin" => some .sin
  | "cos" => some .cos
  | "tan" => some .tan
  | "exp" => some .exp
  | "ln" => some .ln
  | "sqrt" => some .sqrt
  | "abs" => some .abs
  | _ => none

mutual

/-- Parse one head term: literal, variable, function call, unary minus
(binding tighter than every binary operator except `^`), or a
parenthesized expression. -/
def parseHead : ℕ → List Token → Except ParseError (Expr × List Token)
  | 0, _ => .error .unexpectedEnd
  | _ + 1, [] => .error .unexpectedEnd
  | fuel + 1, t :: ts =>
    match t with
    | .num n => .ok (.const (n : ℚ), ts)
    | .ident s =>
      match ts with
      | .lparen :: ts₁ =>
        match funcOfName s with
        | some k => do
          let (arg, ts₂) ← parseExpr fuel 0 ts₁
          match ts₂ with
          | .rparen :: ts₃ => .ok (.unary k arg, ts₃)
          | _ => .error .expectedRParen
        | none => .error (.unknownFunction s)
      | _ => .ok (.var s, ts)
    | .op c =>
      if c = '-' then do
        let (e, ts₁) ← parseExpr fuel 2 ts
        .ok (.unary .neg e, ts₁)
      else .error .unexpectedToken
    | .lparen => do
      let (e, ts₁) ← parseExpr fuel 0 ts
      match ts₁ with
      | .rparen :: ts₂ => .ok (e, ts₂)
      | _ => .error .expectedRParen
    | .rparen => .error .unexpectedToken
termination_by structural fuel => fuel

/-- Precedence-climbing loop: extend `lhs` with binary operators whose
left binding power exceeds `minBP`. -/
def parseLoop :
    ℕ → ℕ → Expr → List Token → Except ParseError (Expr × List Token)
  | 0, _, _, _ => .error .unexpectedEnd
  | fuel + 1, minBP, lhs, ts =>
    match ts with
    | .op c :: ts₁ =>
      match binOfChar c with
      | some k =>
        if minBP < lbp k then do
          let (rhs, ts₂) ← parseExpr fuel (rbp k) ts₁
          parseLoop fuel minBP (.binary k lhs rhs) ts₂
        else .ok (lhs, ts)
      | none => .error .unexpectedToken
    | _ => .ok (lhs, ts)
termination_by structural fuel => fuel

/-- Parse an expression at the given minimum binding power. -/
def parseExpr :
    ℕ → ℕ → List Token → Except ParseError (Expr × List Token)
  | 0, _, _ => .error .unexpectedEnd
  | fuel + 1, minBP, ts => do
    let (lhs, ts₁) ← parseHead fuel ts
    parseLoop fuel minBP lhs ts₁
termination_by structural fuel => fuel

end

/-- Parse a whole expression string: lex, parse at minimum binding power
0, and reject trailing tokens. -/
def parse (s : String) : Except ParseError Expr := do
  let ts ← lex s
  let (e, rest) ← parseExpr (4 * ts.length + 4) 0 ts
  match rest with
  | [] => .ok e
  | _ => .error .trailingTokens

/-! ## Pretty-printer -/

/-- Decimal digit character. -/
def digitChar (d : ℕ) : Char := Char.ofNat (48 + d)

/-- Decimal rendering of a natural number. -/
def natChars (n : ℕ) : List Char :=
  if n = 0 then ['0'] else (Nat.digits 10 n).reverse.map digitChar

/-- Token list of the fully parenthesized pretty-printed form. -/
def printTokens : Expr → List Token
  | .const q => [.num q.num.toNat]
  | .var s => [.ident s]
  | .unary .neg e => [.lparen, .op '-'] ++ printTokens e ++ [.rparen]
  | .unary k e =>
    [.ident (nameOf k), .lparen] ++ printTokens e ++ [.rparen]
  | .binary k l r =>
    [.lparen] ++ printTokens l ++ [.op (charOf k)] ++ printTokens r
      ++ [.rparen]

/-- Characters of one token. -/
def renderTok : Token → List Char
  | .num n => natChars n
  | .ident s => s.data
  | .op c => [c]
  | .lparen => ['(']
  | .rparen => [')']

/-- Characters of a token list. -/
def renderToks : List Token → List Char
  | [] => []
  | t :: ts => renderTok t ++ renderToks ts

/-- Pretty-print an AST (fully parenthesized). -/
def prettyPrint (e : Expr) : String := ⟨renderToks (printTokens e)⟩

/-! ### Lexer lemmas -/

/-- The ASTs the parser can produce: every constant is a natural-number
literal value and every variable name is a nonempty run of letters. -/
def goodName (s : String) : Prop :=
  s.data ≠ [] ∧ ∀ c ∈ s.data, c.isAlpha = true

def GoodExpr : Expr → Prop
  | .const q => ∃ n : ℕ, q = (n : ℚ)
  | .var s => goodName s
  | .unary _ e => GoodExpr e
  | .binary _ l r => GoodExpr l ∧ GoodExpr r

/-- Characters of an expression's printed form. -/
def renderE (e : Expr) : List Char := renderToks (printTokens e)

/-- The rest of the input does not continue a number. -/
def notDigitStart : List Char → Prop
  | [] => True
  | c :: _ => c.isDigit = false

/-- The rest of the input does not continue an identifier. -/
def notAlphaStart : List Char → Prop
  | [] => True
  | c :: _ => c.isAlpha = false

/-- The rest of the input starts (if at all) with an operator or
parenthesis character. -/
def safeStart : List Char → Prop
  | [] => True
  | c :: _ =>
    c = '(' ∨ c = ')' ∨ c = '+' ∨ c = '-' ∨ c = '*' ∨ c = '/' ∨ c = '^'

theorem alpha_not_digit {c : Char} (h : c.isAlpha = true) :
    c.isDigit = false := by
  simp only [Char.isAlpha, Char.isUpper, Char.isLower, Char.isDigit,
    Bool.or_eq_true, Bool.and_eq_true, decide_eq_true_eq, ge_iff_le,
    UInt32.le_def, BitVec.le_def,
    show ((65 : UInt32).toBitVec).toNat = 65 from rfl,
    show ((90 : UInt32).toBitVec).toNat = 90 from rfl,
    show ((97 : UInt32).toBitVec).toNat = 97 from rfl,
    show ((122 : UInt32).toBitVec).toNat = 122 from rfl,
    show ((48 : UInt32).toBitVec).toNat = 48 from rfl,
    show ((57 : UInt32).toBitVec).toNat = 57 from rfl] at h ⊢
  simp only [Bool.and_eq_false_iff, decide_eq_false_iff_not]
  omega

theorem alpha_ne_space {c : Char} (h : c.isAlpha = true) : ¬ c = ' ' := by
  intro heq
  subst heq
  exact absurd h (by decide)

theorem safeStart_notDigit {cs : List Char} (h : safeStart cs) :
    notDigitStart cs := by
  cases cs with
  | nil => trivial
  | cons c cs =>
    rcases h with h | h | h | h | h | h | h <;> subst h <;>
      simp only [notDigitStart] <;> decide

theorem safeStart_notAlpha {cs : List Char} (h : safeStart cs) :
    notAlphaStart cs := by
  cases cs with
  | nil => trivial
  | cons c cs =>
    rcases h with h | h | h | h | h | h | h <;> subst h <;>
      simp only [notAlphaStart] <;> decide

theorem digitChar_props {d : ℕ} (h : d < 10) :
    (digitChar d).isDigit = true ∧ ¬ digitChar d = ' ' ∧
    (digitChar d).toNat - 48 = d := by
  interval_cases d <;> exact ⟨by decide, by decide, by decide⟩

theorem lexNum_stop (acc : ℕ) (cs : List Char) (h : notDigitStart cs) :
    lexNum acc cs = (acc, cs) := by
  cases cs with
  | nil => rfl
  | cons c cs =>
    have h' : c.isDigit = false := h
    simp [lexNum, h']

theorem lexNum_scan :
    ∀ (L : List ℕ) (acc : ℕ) (rest : List Char),
      (∀ d ∈ L, d < 10) → notDigitStart rest →
      lexNum acc (L.map digitChar ++ rest)
        = (L.foldl (fun a d => a * 10 + d) acc, rest) := by
  intro L
  induction L with
  | nil =>
    intro acc rest _ hrest
    simpa using lexNum_stop acc rest hrest
  | cons d L ih =>
    intro acc rest hL hrest
    have hd : d < 10 := hL d (by simp)
    obtain ⟨h1, -, h3⟩ := digitChar_props hd
    simp only [List.map_cons, List.cons_append, lexNum, h1, if_true, h3]
    exact ih (acc * 10 + d) rest (fun x hx => hL x (by simp [hx])) hrest

theorem foldl_digits :
    ∀ (ds : List ℕ) (acc : ℕ),
      List.foldl (fun a d => a * 10 + d) acc ds.reverse
        = acc * 10 ^ ds.length + Nat.ofDigits 10 ds := by
  intro ds
  induction ds with
  | nil => intro acc; simp [Nat.ofDigits]
  | cons d ds ih =>
    intro acc
    simp only [List.reverse_cons, List.foldl_append, ih, List.foldl_cons,
      List.foldl_nil, Nat.ofDigits_cons, List.length_cons]
    ring

theorem lexNum_natChars (n : ℕ) (rest : List Char)
    (hrest : notDigitStart rest) :
    ∃ (c : Char) (cs : List Char), natChars n = c :: cs ∧
      c.isDigit = true ∧ ¬ c = ' ' ∧
      lexNum (c.toNat - 48) (cs ++ rest) = (n, rest) := by
  by_cases h0 : n = 0
  · subst h0
    refine ⟨'0', [], rfl, by decide, by decide, ?_⟩
    simpa using lexNum_stop 0 rest hrest
  · have hne : (Nat.digits 10 n).reverse ≠ [] := by
      simp [Nat.digits_ne_nil_iff_ne_zero, h0]
    cases hL : (Nat.digits 10 n).reverse with
    | nil => exact absurd hL hne
    | cons d Ltail =>
      have hmem : ∀ x ∈ Nat.digits 10 n, x < 10 := fun x hx =>
        Nat.digits_lt_base (by norm_num) hx
      have hd : d < 10 := by
        have : d ∈ (Nat.digits 10 n).reverse := by rw [hL]; simp
        exact hmem d (List.mem_reverse.mp this)
      have htail : ∀ x ∈ Ltail, x < 10 := by
        intro x hx
        have : x ∈ (Nat.digits 10 n).reverse := by rw [hL]; simp [hx]
        exact hmem x (List.mem_reverse.mp this)
      obtain ⟨h1, h2, h3⟩ := digitChar_props hd
      refine ⟨digitChar d, Ltail.map digitChar, ?_, h1, h2, ?_⟩
      · simp [natChars, h0, hL]
      · rw [h3, lexNum_scan Ltail d rest htail hrest]
        have hfold : Ltail.foldl (fun a x => a * 10 + x) d = n := by
          have h1 : List.foldl (fun a x => a * 10 + x) 0
              ((d :: Ltail) : List ℕ) = n := by
            have := foldl_digits (Nat.digits 10 n) 0
            rw [hL] at this
            simpa [Nat.ofDigits_digits] using this
          simpa using h1
        rw [hfold]

theorem lexIdent_stop (cs : List Char) (h : notAlphaStart cs) :
    lexIdent cs = ([], cs) := by
  cases cs with
  | nil => rfl
  | cons c cs =>
    have h' : c.isAlpha = false := h
    simp [lexIdent, h']

theorem lexIdent_scan :
    ∀ (L rest : List Char),
      (∀ c ∈ L, c.isAlpha = true) → notAlphaStart rest →
      lexIdent (L ++ rest) = (L, rest) := by
  intro L
  induction L with
  | nil =>
    intro rest _ hrest
    simpa using lexIdent_stop rest hrest
  | cons c L ih =>
    intro rest hL hrest
    have hc : c.isAlpha = true := hL c (by simp)
    simp only [List.cons_append, lexIdent, hc, if_true]
    rw [show L.append rest = L ++ rest from rfl,
      ih rest (fun x hx => hL x (by simp [hx])) hrest]

theorem exceptMap_ok {α β ε : Type} {f : α → β} {x : Except ε α} {b : β}
    (h : Except.map f x = .ok b) : ∃ a, x = .ok a ∧ b = f a := by
  cases x with
  | error e => simp [Except.map] at h
  | ok a =>
    refine ⟨a, rfl, ?_⟩
    simpa [Except.map] using h.symm

theorem renderToks_append (ts₁ ts₂ : List Token) :
    renderToks (ts₁ ++ ts₂) = renderToks ts₁ ++ renderToks ts₂ := by
  induction ts₁ with
  | nil => rfl
  | cons t ts ih => simp [renderToks, ih]

theorem string_mk_data (s : String) : String.mk s.data = s := rfl

/-! ### One-step tokenizer equations -/

theorem tokenize_lparen (fuel : ℕ) (cs : List Char) :
    tokenize (fuel + 1) ('(' :: cs)
      = (tokenize fuel cs).map (fun ts => .lparen :: ts) := by
  simp [tokenize]

theorem tokenize_rparen (fuel : ℕ) (cs : List Char) :
    tokenize (fuel + 1) (')' :: cs)
      = (tokenize fuel cs).map (fun ts => .rparen :: ts) := by
  simp [tokenize]

theorem tokenize_op {c : Char}
    (h : c = '+' ∨ c = '-' ∨ c = '*' ∨ c = '/' ∨ c = '^')
    (fuel : ℕ) (cs : List Char) :
    tokenize (fuel + 1) (c :: cs)
      = (tokenize fuel cs).map (fun ts => .op c :: ts) := by
  rcases h with h | h | h | h | h <;> subst h <;> simp [tokenize]

theorem tokenize_digit {c : Char} (h1 : c.isDigit = true) (h2 : ¬ c = ' ')
    (fuel : ℕ) (cs : List Char) :
    tokenize (fuel + 1) (c :: cs)
      = (tokenize fuel (lexNum (c.toNat - 48) cs).2).map
          (fun ts => .num (lexNum (c.toNat - 48) cs).1 :: ts) := by
  simp [tokenize, h1, h2]

theorem tokenize_alpha {c : Char} (h1 : c.isAlpha = true)
    (fuel : ℕ) (cs : List Char) :
    tokenize (fuel + 1) (c :: cs)
      = (tokenize fuel (lexIdent cs).2).map
          (fun ts => .ident (String.mk (c :: (lexIdent cs).1)) :: ts) := by
  simp [tokenize, h1, alpha_not_digit h1, alpha_ne_space h1]

/-- Success of the tokenizer is monotone in its fuel. -/
theorem tokenize_mono :
    ∀ (fuel : ℕ) (cs : List Char) (ts : List Token) (k : ℕ),
      tokenize fuel cs = .ok ts → tokenize (fuel + k) cs = .ok ts := by
  intro fuel
  induction fuel with
  | zero => intro cs ts k h; simp [tokenize] at h
  | succ fuel ih =>
    intro cs ts k h
    rw [show fuel + 1 + k = (fuel + k) + 1 from by omega]
    cases cs with
    | nil => simpa [tokenize] using h
    | cons c cs =>
      rw [tokenize] at h ⊢
      simp only [] at h ⊢
      split_ifs at h ⊢ <;>
        first
          | exact ih cs ts k h
          | (obtain ⟨ts', hts', rfl⟩ := exceptMap_ok h
             rw [ih _ _ k hts']
             try rfl)

/-- Lexing an identifier's characters in front of a non-letter rest
produces the identifier token followed by the rest's tokens. -/
theorem tokenize_ident_step (s : String) (hs : goodName s) :
    ∀ (fuel : ℕ) (rest : List Char) (ts : List Token), notAlphaStart rest →
      tokenize fuel rest = .ok ts →
      tokenize (fuel + s.data.length) (s.data ++ rest)
        = .ok (.ident s :: ts) := by
  obtain ⟨hne, hall⟩ := hs
  intro fuel rest ts hrest h
  cases hsd : s.data with
  | nil => exact absurd hsd hne
  | cons c nm =>
    have hc : c.isAlpha = true := hall c (by rw [hsd]; simp)
    have hnm : ∀ x ∈ nm, x.isAlpha = true := fun x hx =>
      hall x (by rw [hsd]; simp [hx])
    rw [show fuel + (c :: nm).length = (fuel + nm.length) + 1 from by
      simp only [List.length_cons]
      omega]
    rw [List.cons_append, tokenize_alpha hc,
      lexIdent_scan nm rest hnm hrest]
    rw [tokenize_mono fuel rest ts nm.length h]
    rw [← hsd, string_mk_data]
    rfl

/-- Lexing a number's characters in front of a safe rest produces the
number token followed by the rest's tokens. -/
theorem tokenize_num_step (n : ℕ) :
    ∀ (fuel : ℕ) (rest : List Char) (ts : List Token), notDigitStart rest →
      tokenize fuel rest = .ok ts →
      tokenize (fuel + (natChars n).length) (natChars n ++ rest)
        = .ok (.num n :: ts) := by
  intro fuel rest ts hrest h
  obtain ⟨c, cs, hnc, h1, h2, hlex⟩ := lexNum_natChars n rest hrest
  rw [hnc, show fuel + (c :: cs).length = (fuel + cs.length) + 1 from by
    simp only [List.length_cons]
    omega]
  rw [List.cons_append, tokenize_digit h1 h2, hlex]
  rw [tokenize_mono fuel rest ts cs.length h]
  rfl

theorem renderE_const (q : ℚ) :
    renderE (.const q) = natChars q.num.toNat := by
  simp [renderE, printTokens, renderToks, renderTok]

theorem renderE_var (s : String) : renderE (.var s) = s.data := by
  simp [renderE, printTokens, renderToks, renderTok]

theorem renderE_neg (f : Expr) :
    renderE (.unary .neg f) = '(' :: '-' :: (renderE f ++ [')']) := by
  simp [renderE, printTokens, renderToks_append, renderToks, renderTok]

theorem renderE_fn (k : UnKind) (hk : ¬ k = UnKind.neg) (f : Expr) :
    renderE (.unary k f)
      = (nameOf k).data ++ ('(' :: (renderE f ++ [')'])) := by
  cases k
  · exact absurd rfl hk
  all_goals
    simp [renderE, printTokens, renderToks_append, renderToks, renderTok,
      nameOf]

theorem renderE_bin (k : BinKind) (l r : Expr) :
    renderE (.binary k l r)
      = '(' :: (renderE l ++ (charOf k :: (renderE r ++ [')']))) := by
  simp [renderE, printTokens, renderToks_append, renderToks, renderTok]

theorem nameOf_good (k : UnKind) : goodName (nameOf k) := by
  cases k <;> exact ⟨by decide, by decide⟩

theorem printTokens_fn (k : UnKind) (hk : ¬ k = UnKind.neg) (f : Expr) :
    printTokens (.unary k f)
      = [.ident (nameOf k), .lparen] ++ printTokens f ++ [.rparen] := by
  cases k
  · exact absurd rfl hk
  all_goals rfl

/-- Tokenizing the printed form of a good expression in front of safe
rest characters yields its printed tokens followed by the rest's
tokens. -/
theorem tokenize_append (e : Expr) :
    ∀ (hg : GoodExpr e) (fuel : ℕ) (rest : List Char) (ts : List Token),
      safeStart rest → tokenize fuel rest = .ok ts →
      tokenize (fuel + (renderE e).length) (renderE e ++ rest)
        = .ok (printTokens e ++ ts) := by
  induction e with
  | const q =>
    intro hg fuel rest ts hsafe h
    obtain ⟨n, rfl⟩ := hg
    have hn : ((n : ℚ)).num.toNat = n := by simp
    rw [renderE_const, hn]
    simp only [printTokens, hn, List.cons_append, List.nil_append]
    exact tokenize_num_step n fuel rest ts (safeStart_notDigit hsafe) h
  | var s =>
    intro hg fuel rest ts hsafe h
    rw [renderE_var]
    simp only [printTokens, List.cons_append, List.nil_append]
    exact tokenize_ident_step s hg fuel rest ts (safeStart_notAlpha hsafe) h
  | unary k f ih =>
    by_cases hk : k = UnKind.neg
    · subst hk
      intro hg fuel rest ts hsafe h
      have hr1 : tokenize (fuel + 1) (')' :: rest) = .ok (.rparen :: ts) := by
        rw [tokenize_rparen, h]
        rfl
      have hr2 := ih hg (fuel + 1) (')' :: rest) (.rparen :: ts)
        (by simp [safeStart]) hr1
      have hr3 : tokenize (((fuel + 1) + (renderE f).length) + 1)
          ('-' :: (renderE f ++ ')' :: rest))
          = .ok (.op '-' :: (printTokens f ++ .rparen :: ts)) := by
        rw [tokenize_op (Or.inr (Or.inl rfl)), hr2]
        rfl
      have hr4 : tokenize ((((fuel + 1) + (renderE f).length) + 1) + 1)
          ('(' :: '-' :: (renderE f ++ ')' :: rest))
          = .ok (.lparen :: .op '-' :: (printTokens f ++ .rparen :: ts)) := by
        rw [tokenize_lparen, hr3]
        rfl
      rw [renderE_neg]
      rw [show fuel + ('(' :: '-' :: (renderE f ++ [')'])).length
          = (((fuel + 1) + (renderE f).length) + 1) + 1 from by
        simp only [List.length_cons, List.length_append, List.length_nil]
        omega]
      rw [show ('(' :: '-' :: (renderE f ++ [')'])) ++ rest
          = '(' :: '-' :: (renderE f ++ ')' :: rest) from by simp]
      rw [hr4]
      simp [printTokens]
    · intro hg fuel rest ts hsafe h
      have hr1 : tokenize (fuel + 1) (')' :: rest) = .ok (.rparen :: ts) := by
        rw [tokenize_rparen, h]
        rfl
      have hr2 := ih hg (fuel + 1) (')' :: rest) (.rparen :: ts)
        (by simp [safeStart]) hr1
      have hr3 : tokenize (((fuel + 1) + (renderE f).length) + 1)
          ('(' :: (renderE f ++ ')' :: rest))
          = .ok (.lparen :: (printTokens f ++ .rparen :: ts)) := by
        rw [tokenize_lparen, hr2]
        rfl
      have hr4 := tokenize_ident_step (nameOf k) (nameOf_good k)
        (((fuel + 1) + (renderE f).length) + 1)
        ('(' :: (renderE f ++ ')' :: rest))
        (.lparen :: (printTokens f ++ .rparen :: ts))
        (by simp only [notAlphaStart]; decide) hr3
      rw [renderE_fn k hk]
      rw [show fuel + ((nameOf k).data
            ++ ('(' :: (renderE f ++ [')']))).length
          = (((fuel + 1) + (renderE f).length) + 1)
              + (nameOf k).data.length from by
        simp only [List.length_cons, List.length_append, List.length_nil]
        omega]
      rw [show ((nameOf k).data ++ ('(' :: (renderE f ++ [')']))) ++ rest
          = (nameOf k).data ++ ('(' :: (renderE f ++ ')' :: rest))
          from by simp]
      rw [hr4, printTokens_fn k hk]
      simp
  | binary k l r ihl ihr =>
    intro hg fuel rest ts hsafe h
    obtain ⟨hgl, hgr⟩ := hg
    have hr1 : tokenize (fuel + 1) (')' :: rest) = .ok (.rparen :: ts) := by
      rw [tokenize_rparen, h]
      rfl
    have hr2 := ihr hgr (fuel + 1) (')' :: rest) (.rparen :: ts)
      (by simp [safeStart]) hr1
    have hop : charOf k = '+' ∨ charOf k = '-' ∨ charOf k = '*' ∨
        charOf k = '/' ∨ charOf k = '^' := by
      cases k <;> simp [charOf]
    have hr3 : tokenize (((fuel + 1) + (renderE r).length) + 1)
        (charOf k :: (renderE r ++ ')' :: rest))
        = .ok (.op (charOf k) :: (printTokens r ++ .rparen :: ts)) := by
      rw [tokenize_op hop, hr2]
      rfl
    have hsafe2 : safeStart (charOf k :: (renderE r ++ ')' :: rest)) := by
      cases k <;> simp [safeStart, charOf]
    have hr4 := ihl hgl (((fuel + 1) + (renderE r).length) + 1)
      (charOf k :: (renderE r ++ ')' :: rest))
      (.op (charOf k) :: (printTokens r ++ .rparen :: ts)) hsafe2 hr3
    have hr5 : tokenize (((((fuel + 1) + (renderE r).length) + 1)
          + (renderE l).length) + 1)
        ('(' :: (renderE l ++ charOf k :: (renderE r ++ ')' :: rest)))
        = .ok (.lparen :: (printTokens l
            ++ .op (charOf k) :: (printTokens r ++ .rparen :: ts))) := by
      rw [tokenize_lparen, hr4]
      rfl
    rw [renderE_bin]
    rw [show fuel + ('(' :: (renderE l
          ++ (charOf k :: (renderE r ++ [')'])))).length
        = ((((fuel + 1) + (renderE r).length) + 1)
            + (renderE l).length) + 1 from by
      simp only [List.length_cons, List.length_append, List.length_nil]
      omega]
    rw [show ('(' :: (renderE l ++ (charOf k :: (renderE r ++ [')']))))
          ++ rest
        = '(' :: (renderE l ++ charOf k :: (renderE r ++ ')' :: rest))
        from by simp]
    rw [hr5]
    simp [printTokens]

/-- Lexing the printed form of a good expression yields exactly its
printed tokens. -/
theorem lex_print (e : Expr) (hg : GoodExpr e) :
    lex (prettyPrint e) = .ok (printTokens e) := by
  have h0 : tokenize 1 ([] : List Char) = .ok [] := by simp [tokenize]
  have h := tokenize_append e hg 1 [] [] trivial h0
  simp only [List.append_nil] at h
  show tokenize ((renderE e).length + 1) (renderE e) = .ok (printTokens e)
  rw [show (renderE e).length + 1 = 1 + (renderE e).length from by omega, h]

/-! ### Parser round-trip lemmas -/

/-- Node count of an expression. -/
def esize : Expr → ℕ
  | .const _ => 1
  | .var _ => 1
  | .unary _ e => esize e + 1
  | .binary _ l r => esize l + esize r + 1

/-- The rest of the token stream stops the precedence-climbing loop. -/
def stopTok : List Token → Prop
  | [] => True
  | .rparen :: _ => True
  | _ => False

/-- The rest of the token stream does not begin with `(` (so a variable
just before it is not mistaken for a function call). -/
def noLParenStart : List Token → Prop
  | .lparen :: _ => False
  | _ => True

theorem stop_noLParen {ts : List Token} (h : stopTok ts) :
    noLParenStart ts := by
  cases ts with
  | nil => trivial
  | cons t ts => cases t <;> trivial

theorem lbp_pos (k : BinKind) : 0 < lbp k := by cases k <;> decide

theorem binOfChar_charOf (k : BinKind) : binOfChar (charOf k) = some k := by
  cases k <;> rfl

theorem funcOfName_nameOf (k : UnKind) (hk : ¬ k = UnKind.neg) :
    funcOfName (nameOf k) = some k := by
  cases k
  · exact absurd rfl hk
  all_goals rfl

theorem parseLoop_stop (fuel minBP : ℕ) (lhs : Expr) (ts : List Token)
    (hf : 1 ≤ fuel) (hstop : stopTok ts) :
    parseLoop fuel minBP lhs ts = .ok (lhs, ts) := by
  obtain ⟨f, rfl⟩ : ∃ f, fuel = f + 1 := ⟨fuel - 1, by omega⟩
  cases ts with
  | nil => rfl
  | cons t ts =>
    cases t with
    | rparen => rfl
    | lparen => exact absurd hstop (by simp [stopTok])
    | num n => exact absurd hstop (by simp [stopTok])
    | ident s => exact absurd hstop (by simp [stopTok])
    | op c => exact absurd hstop (by simp [stopTok])

theorem parseExpr_of_head (e : Expr) (n : ℕ) (hn : 1 ≤ n)
    (hh : ∀ fuel, n ≤ fuel → ∀ rest, noLParenStart rest →
      parseHead fuel (printTokens e ++ rest) = .ok (e, rest)) :
    ∀ fuel, n + 1 ≤ fuel → ∀ (minBP : ℕ) (rest : List Token), stopTok rest →
      parseExpr fuel minBP (printTokens e ++ rest) = .ok (e, rest) := by
  intro fuel hf minBP rest hstop
  obtain ⟨f, rfl⟩ : ∃ f, fuel = f + 1 := ⟨fuel - 1, by omega⟩
  rw [parseExpr]
  rw [hh f (by omega) rest (stop_noLParen hstop)]
  simp only [bind, Except.bind]
  exact parseLoop_stop f minBP e rest (by omega) hstop

theorem esize_pos (e : Expr) : 1 ≤ esize e := by
  cases e <;> simp [esize]

/-- The parser reads back the printed tokens of a good expression as a
head term, leaving the rest untouched. -/
theorem parseHead_print (e : Expr) :
    ∀ (hg : GoodExpr e) (fuel : ℕ), 4 * esize e ≤ fuel →
      ∀ rest : List Token, noLParenStart rest →
      parseHead fuel (printTokens e ++ rest) = .ok (e, rest) := by
  induction e with
  | const q =>
    intro hg fuel hfuel rest _
    obtain ⟨n, rfl⟩ := hg
    simp only [esize] at hfuel
    obtain ⟨f, rfl⟩ : ∃ f, fuel = f + 1 := ⟨fuel - 1, by omega⟩
    simp only [printTokens, List.cons_append, List.nil_append, parseHead]
    simp
  | var s =>
    intro hg fuel hfuel rest hnl
    simp only [esize] at hfuel
    obtain ⟨f, rfl⟩ : ∃ f, fuel = f + 1 := ⟨fuel - 1, by omega⟩
    simp only [printTokens, List.cons_append, List.nil_append, parseHead]
    cases rest with
    | nil => rfl
    | cons t rest =>
      cases t with
      | lparen => exact absurd hnl (by simp [noLParenStart])
      | num n => rfl
      | ident s' => rfl
      | op c => rfl
      | rparen => rfl
  | unary k f ih =>
    by_cases hk : k = UnKind.neg
    · subst hk
      intro hg fuel hfuel rest hnl
      simp only [esize] at hfuel
      have hp := esize_pos f
      obtain ⟨f₁, rfl⟩ : ∃ x, fuel = x + 1 := ⟨fuel - 1, by omega⟩
      obtain ⟨g, rfl⟩ : ∃ x, f₁ = x + 1 := ⟨f₁ - 1, by omega⟩
      obtain ⟨h, rfl⟩ : ∃ x, g = x + 1 := ⟨g - 1, by omega⟩
      have hsub := parseExpr_of_head f (4 * esize f)
        (by omega) (ih hg) h (by omega) 2
        (.rparen :: rest) trivial
      have h1 : parseHead (h + 1)
          (.op '-' :: (printTokens f ++ (.rparen :: rest)))
          = .ok (.unary .neg f, .rparen :: rest) := by
        rw [parseHead]
        simp [hsub, bind, Except.bind]
      have h2 : parseExpr (h + 1 + 1) 0
          (.op '-' :: (printTokens f ++ (.rparen :: rest)))
          = .ok (.unary .neg f, .rparen :: rest) := by
        rw [parseExpr, h1]
        simp only [bind, Except.bind]
        exact parseLoop_stop (h + 1) 0 _ _ (by omega) trivial
      have hlist : printTokens (.unary .neg f) ++ rest
          = .lparen :: .op '-' :: (printTokens f ++ (.rparen :: rest)) := by
        simp [printTokens]
      rw [hlist, parseHead, h2]
      simp [bind, Except.bind]
    · intro hg fuel hfuel rest hnl
      simp only [esize] at hfuel
      have hp := esize_pos f
      obtain ⟨f₁, rfl⟩ : ∃ x, fuel = x + 1 := ⟨fuel - 1, by omega⟩
      have hsub := parseExpr_of_head f (4 * esize f)
        (by omega) (ih hg) f₁ (by omega) 0
        (.rparen :: rest) trivial
      have hlist : printTokens (.unary k f) ++ rest
          = .ident (nameOf k)
              :: .lparen :: (printTokens f ++ (.rparen :: rest)) := by
        rw [printTokens_fn k hk]
        simp
      rw [hlist, parseHead, funcOfName_nameOf k hk, hsub]
      simp [bind, Except.bind]
  | binary k l r ihl ihr =>
    intro hg fuel hfuel rest hnl
    obtain ⟨hgl, hgr⟩ := hg
    simp only [esize] at hfuel
    have hl := esize_pos l
    have hr := esize_pos r
    obtain ⟨f₁, rfl⟩ : ∃ x, fuel = x + 1 := ⟨fuel - 1, by omega⟩
    obtain ⟨g, rfl⟩ : ∃ x, f₁ = x + 1 := ⟨f₁ - 1, by omega⟩
    obtain ⟨h, rfl⟩ : ∃ x, g = x + 1 := ⟨g - 1, by omega⟩
    have hsubr := parseExpr_of_head r (4 * esize r)
      (by omega) (ihr hgr) h (by omega) (rbp k)
      (.rparen :: rest) trivial
    have hheadl := ihl hgl (h + 1)
      (by omega)
      (.op (charOf k) :: (printTokens r ++ (.rparen :: rest)))
      trivial
    have hloop : parseLoop (h + 1) 0 l
        (.op (charOf k) :: (printTokens r ++ (.rparen :: rest)))
        = .ok (.binary k l r, .rparen :: rest) := by
      rw [parseLoop, binOfChar_charOf]
      simp only [lbp_pos k, if_pos, hsubr, bind, Except.bind]
      exact parseLoop_stop h 0 _ _ (by omega) trivial
    have h2 : parseExpr (h + 1 + 1) 0
        (printTokens l
          ++ (.op (charOf k) :: (printTokens r ++ (.rparen :: rest))))
        = .ok (.binary k l r, .rparen :: rest) := by
      rw [parseExpr, hheadl]
      simp only [bind, Except.bind]
      exact hloop
    have hlist : printTokens (.binary k l r) ++ rest
        = .lparen :: (printTokens l
            ++ (.op (charOf k) :: (printTokens r ++ (.rparen :: rest)))) := by
      simp [printTokens]
    rw [hlist, parseHead, h2]
    simp [bind, Except.bind]

/-- The parser reads back the printed tokens of a good expression at any
minimum binding power, given a stopping rest. -/
theorem parseExpr_print (e : Expr) (hg : GoodExpr e) (fuel : ℕ)
    (hfuel : 4 * esize e + 1 ≤ fuel) (minBP : ℕ) (rest : List Token)
    (hstop : stopTok rest) :
    parseExpr fuel minBP (printTokens e ++ rest) = .ok (e, rest) :=
  parseExpr_of_head e (4 * esize e) (by have := esize_pos e; omega)
    (parseHead_print e hg) fuel hfuel minBP rest hstop

/-! ### The parser only produces good expressions -/

/-- All identifier tokens in the list have good names. -/
def identsGood (ts : List Token) : Prop :=
  ∀ s : String, .ident s ∈ ts → goodName s

theorem lexIdent_alpha :
    ∀ cs : List Char, ∀ x ∈ (lexIdent cs).1, x.isAlpha = true := by
  intro cs
  induction cs with
  | nil => intro x hx; simp [lexIdent] at hx
  | cons c cs ih =>
    intro x hx
    by_cases hc : c.isAlpha = true
    · rcases hlex : lexIdent cs with ⟨nm, rest⟩
      simp only [lexIdent, hc, if_true, hlex] at hx
      rcases List.mem_cons.mp hx with rfl | hmem
      · exact hc
      · exact ih x (by rw [hlex]; exact hmem)
    · simp only [lexIdent, hc, if_false] at hx
      simp at hx

/-- Tokenization only produces good identifier names. -/
theorem tokens_good :
    ∀ (fuel : ℕ) (cs : List Char) (ts : List Token),
      tokenize fuel cs = .ok ts → identsGood ts := by
  intro fuel
  induction fuel with
  | zero => intro cs ts h; simp [tokenize] at h
  | succ fuel ih =>
    intro cs ts h
    cases cs with
    | nil =>
      simp only [tokenize, Except.ok.injEq] at h
      subst h
      intro s hs
      simp at hs
    | cons c cs =>
      rw [tokenize] at h
      simp only [] at h
      split_ifs at h with h1 h2 h3 h4 h5 h6
      · exact ih _ _ h
      · obtain ⟨ts', hts', rfl⟩ := exceptMap_ok h
        intro s hs
        rcases List.mem_cons.mp hs with heq | hmem
        · simp at heq
        · exact ih _ _ hts' s hmem
      · obtain ⟨ts', hts', rfl⟩ := exceptMap_ok h
        intro s hs
        rcases List.mem_cons.mp hs with heq | hmem
        · simp only [Token.ident.injEq] at heq
          subst heq
          refine ⟨by simp, ?_⟩
          intro x hx
          rcases List.mem_cons.mp hx with rfl | hmem
          · exact h3
          · exact lexIdent_alpha cs x hmem
        · exact ih _ _ hts' s hmem
      · obtain ⟨ts', hts', rfl⟩ := exceptMap_ok h
        intro s hs
        rcases List.mem_cons.mp hs with heq | hmem
        · simp at heq
        · exact ih _ _ hts' s hmem
      · obtain ⟨ts', hts', rfl⟩ := exceptMap_ok h
        intro s hs
        rcases List.mem_cons.mp hs with heq | hmem
        · simp at heq
        · exact ih _ _ hts' s hmem
      · obtain ⟨ts', hts', rfl⟩ := exceptMap_ok h
        intro s hs
        rcases List.mem_cons.mp hs with heq | hmem
        · simp at heq
        · exact ih _ _ hts' s hmem

/-- The parser only produces good expressions from good token lists, and
leaves a good rest. -/
theorem parse_good_aux :
    ∀ fuel : ℕ,
      (∀ (ts : List Token) (e : Expr) (rest : List Token),
        parseHead fuel ts = .ok (e, rest) → identsGood ts →
        GoodExpr e ∧ identsGood rest) ∧
      (∀ (minBP : ℕ) (lhs : Expr) (ts : List Token) (e : Expr)
          (rest : List Token),
        parseLoop fuel minBP lhs ts = .ok (e, rest) → GoodExpr lhs →
        identsGood ts → GoodExpr e ∧ identsGood rest) ∧
      (∀ (minBP : ℕ) (ts : List Token) (e : Expr) (rest : List Token),
        parseExpr fuel minBP ts = .ok (e, rest) → identsGood ts →
        GoodExpr e ∧ identsGood rest) := by
  intro fuel
  induction fuel with
  | zero =>
    refine ⟨?_, ?_, ?_⟩
    · intro ts e rest h; simp [parseHead] at h
    · intro minBP lhs ts e rest h; simp [parseLoop] at h
    · intro minBP ts e rest h; simp [parseExpr] at h
  | succ fuel ih =>
    obtain ⟨ihH, ihL, ihE⟩ := ih
    refine ⟨?_, ?_, ?_⟩
    · intro ts e rest h hg
      cases ts with
      | nil => simp [parseHead] at h
      | cons t ts' =>
        have hg' : identsGood ts' := fun s hs =>
          hg s (List.mem_cons_of_mem _ hs)
        cases t with
        | num n =>
          rw [parseHead] at h
          simp only [Except.ok.injEq, Prod.mk.injEq] at h
          obtain ⟨rfl, rfl⟩ := h
          exact ⟨⟨n, rfl⟩, hg'⟩
        | ident s =>
          cases ts' with
          | nil =>
            simp only [parseHead] at h
            simp only [Except.ok.injEq, Prod.mk.injEq] at h
            obtain ⟨rfl, rfl⟩ := h
            exact ⟨hg s (by simp), fun x hx => by simp at hx⟩
          | cons t₂ ts₂ =>
            have hg₂ : identsGood ts₂ := fun x hx =>
              hg' x (List.mem_cons_of_mem _ hx)
            cases t₂ with
            | lparen =>
              simp only [parseHead] at h
              cases hfn : funcOfName s with
              | none => rw [hfn] at h; simp at h
              | some k =>
                rw [hfn] at h
                simp only [bind, Except.bind] at h
                cases hpe : parseExpr fuel 0 ts₂ with
                | error err => rw [hpe] at h; simp at h
                | ok pr =>
                  obtain ⟨arg, ts₃⟩ := pr
                  rw [hpe] at h
                  simp only [] at h
                  obtain ⟨hga, hg₃⟩ := ihE 0 ts₂ arg ts₃ hpe hg₂
                  cases ts₃ with
                  | nil => simp at h
                  | cons t₄ ts₄ =>
                    cases t₄ with
                    | rparen =>
                      simp only [Except.ok.injEq, Prod.mk.injEq] at h
                      obtain ⟨rfl, rfl⟩ := h
                      exact ⟨hga, fun x hx =>
                        hg₃ x (List.mem_cons_of_mem _ hx)⟩
                    | num n₂ => simp at h
                    | ident s₃ => simp at h
                    | op c₂ => simp at h
                    | lparen => simp at h
            | num n =>
              simp only [parseHead] at h
              simp only [Except.ok.injEq, Prod.mk.injEq] at h
              obtain ⟨rfl, rfl⟩ := h
              exact ⟨hg s (by simp), hg'⟩
            | ident s₂ =>
              simp only [parseHead] at h
              simp only [Except.ok.injEq, Prod.mk.injEq] at h
              obtain ⟨rfl, rfl⟩ := h
              exact ⟨hg s (by simp), hg'⟩
            | op c =>
              simp only [parseHead] at h
              simp only [Except.ok.injEq, Prod.mk.injEq] at h
              obtain ⟨rfl, rfl⟩ := h
              exact ⟨hg s (by simp), hg'⟩
            | rparen =>
              simp only [parseHead] at h
              simp only [Except.ok.injEq, Prod.mk.injEq] at h
              obtain ⟨rfl, rfl⟩ := h
              exact ⟨hg s (by simp), hg'⟩
        | op c =>
          rw [parseHead] at h
          by_cases hc : c = '-'
          · rw [if_pos hc] at h
            simp only [bind, Except.bind] at h
            cases hpe : parseExpr fuel 2 ts' with
            | error err => rw [hpe] at h; simp at h
            | ok pr =>
              obtain ⟨arg, ts₃⟩ := pr
              rw [hpe] at h
              simp only [Except.ok.injEq, Prod.mk.injEq] at h
              obtain ⟨rfl, rfl⟩ := h
              obtain ⟨hga, hg₃⟩ := ihE 2 ts' arg ts₃ hpe hg'
              exact ⟨hga, hg₃⟩
          · rw [if_neg hc] at h
            simp at h
        | lparen =>
          rw [parseHead] at h
          simp only [bind, Except.bind] at h
          cases hpe : parseExpr fuel 0 ts' with
          | error err => rw [hpe] at h; simp at h
          | ok pr =>
            obtain ⟨inner, ts₃⟩ := pr
            rw [hpe] at h
            simp only [] at h
            obtain ⟨hgi, hg₃⟩ := ihE 0 ts' inner ts₃ hpe hg'
            cases ts₃ with
            | nil => simp at h
            | cons t₄ ts₄ =>
              cases t₄ with
              | rparen =>
                simp only [Except.ok.injEq, Prod.mk.injEq] at h
                obtain ⟨rfl, rfl⟩ := h
                exact ⟨hgi, fun x hx => hg₃ x (List.mem_cons_of_mem _ hx)⟩
              | num n₂ => simp at h
              | ident s₃ => simp at h
              | op c₂ => simp at h
              | lparen => simp at h
        | rparen =>
          rw [parseHead] at h
          simp at h
    · intro minBP lhs ts e rest h hlhs hg
      cases ts with
      | nil =>
        simp only [parseLoop] at h
        simp only [Except.ok.injEq, Prod.mk.injEq] at h
        obtain ⟨rfl, rfl⟩ := h
        exact ⟨hlhs, hg⟩
      | cons t ts' =>
        have hg' : identsGood ts' := fun s hs =>
          hg s (List.mem_cons_of_mem _ hs)
        cases t with
        | op c =>
          rw [parseLoop] at h
          cases hbo : binOfChar c with
          | none => rw [hbo] at h; simp at h
          | some k =>
            rw [hbo] at h
            simp only [] at h
            by_cases hbp : minBP < lbp k
            · rw [if_pos hbp] at h
              simp only [bind, Except.bind] at h
              cases hpe : parseExpr fuel (rbp k) ts' with
              | error err => rw [hpe] at h; simp at h
              | ok pr =>
                obtain ⟨rhs, ts₂⟩ := pr
                rw [hpe] at h
                simp only [] at h
                obtain ⟨hgr, hg₂⟩ := ihE (rbp k) ts' rhs ts₂ hpe hg'
                exact ihL minBP (.binary k lhs rhs) ts₂ e rest h
                  ⟨hlhs, hgr⟩ hg₂
            · rw [if_neg hbp] at h
              simp only [Except.ok.injEq, Prod.mk.injEq] at h
              obtain ⟨rfl, rfl⟩ := h
              exact ⟨hlhs, hg⟩
        | num n =>
          simp only [parseLoop] at h
          simp only [Except.ok.injEq, Prod.mk.injEq] at h
          obtain ⟨rfl, rfl⟩ := h
          exact ⟨hlhs, hg⟩
        | ident s =>
          simp only [parseLoop] at h
          simp only [Except.ok.injEq, Prod.mk.injEq] at h
          obtain ⟨rfl, rfl⟩ := h
          exact ⟨hlhs, hg⟩
        | lparen =>
          simp only [parseLoop] at h
          simp only [Except.ok.injEq, Prod.mk.injEq] at h
          obtain ⟨rfl, rfl⟩ := h
          exact ⟨hlhs, hg⟩
        | rparen =>
          simp only [parseLoop] at h
          simp only [Except.ok.injEq, Prod.mk.injEq] at h
          obtain ⟨rfl, rfl⟩ := h
          exact ⟨hlhs, hg⟩
    · intro minBP ts e rest h hg
      rw [parseExpr] at h
      simp only [bind, Except.bind] at h
      cases hph : parseHead fuel ts with
      | error err => rw [hph] at h; simp at h
      | ok pr =>
        obtain ⟨lhs, ts₁⟩ := pr
        rw [hph] at h
        simp only [] at h
        obtain ⟨hgl, hg₁⟩ := ihH ts lhs ts₁ hph hg
        exact ihL minBP lhs ts₁ e rest h hgl hg₁

/-- The printed token list is at least as long as the node count. -/
theorem esize_le_print (e : Expr) :
    esize e ≤ (printTokens e).length := by
  induction e with
  | const q => simp [esize, printTokens]
  | var s => simp [esize, printTokens]
  | unary k f ih =>
    cases k <;> simp [esize, printTokens] <;> omega
  | binary k l r ihl ihr =>
    simp [esize, printTokens]
    omega

/-! ## C3: parse / pretty-print / parse round trip -/

/-- C3.  For every well-formed expression string, parsing it,
pretty-printing the resulting AST and parsing the printed text again
yields an AST structurally identical to the first parse. -/
theorem parse_print_roundtrip (s : String) (a : Expr)
    (h : parse s = .ok a) : parse (prettyPrint a) = .ok a := by
  have hgood : GoodExpr a := by
    unfold parse at h
    cases hlex : lex s with
    | error err => rw [hlex] at h; simp [bind, Except.bind] at h
    | ok ts =>
      rw [hlex] at h
      simp only [bind, Except.bind] at h
      cases hpe : parseExpr (4 * ts.length + 4) 0 ts with
      | error err => rw [hpe] at h; simp at h
      | ok pr =>
        obtain ⟨e, rest⟩ := pr
        rw [hpe] at h
        simp only [] at h
        have hid : identsGood ts := by
          unfold lex at hlex
          exact tokens_good _ _ _ hlex
        have hge := (parse_good_aux (4 * ts.length + 4)).2.2 0 ts e rest
          hpe hid
        cases rest with
        | nil =>
          simp only [Except.ok.injEq] at h
          subst h
          exact hge.1
        | cons t r => simp at h
  unfold parse
  rw [lex_print a hgood]
  simp only [bind, Except.bind]
  have hpe := parseExpr_print a hgood (4 * (printTokens a).length + 4)
    (by have := esize_le_print a; omega) 0 [] trivial
  rw [List.append_nil] at hpe
  rw [hpe]

/-- Witness for C3 at the concrete input string `x+1`. -/
theorem parse_print_roundtrip_witness :
    parse "x+1" = .ok (.binary .add (.var "x") (.const ((1 : ℕ) : ℚ))) ∧
    parse (prettyPrint (.binary .add (.var "x") (.const ((1 : ℕ) : ℚ))))
      = .ok (.binary .add (.var "x") (.const ((1 : ℕ) : ℚ))) := by
  have h : parse "x+1"
      = .ok (.binary .add (.var "x") (.const ((1 : ℕ) : ℚ))) := by rfl
  exact ⟨h, parse_print_roundtrip "x+1" _ h⟩

end Kistaverk
